import Mathlib

/-!
Verification of the bit-packing core of the iopp library.

The C++ sources are shallowly embedded: machine words (`uintmax_t`, the
`PackWord` type) are modelled as `Nat` with explicit reduction `% 2 ^ 64`
wherever the C++ arithmetic wraps, stateful classes become structures with
explicit state passing, and output iterators become accumulated `List Nat`
of the emitted words.
-/

namespace Iopp

set_option maxHeartbeats 1000000
set_option maxRecDepth 4096

/-! ## pack_word.hpp -/

/-- Number of bits of a PackWord (`std::numeric_limits<uintmax_t>::digits`). -/
def PACK_WORD_BITS : Nat := 64

/-- Maximum PackWord value (`std::numeric_limits<uintmax_t>::max()`). -/
def PACK_WORD_MAX : Nat := 2 ^ PACK_WORD_BITS - 1

/-- Base-2 logarithm by repeated halving (the fuel, instantiated with `n`
itself, only makes the recursion structural; `n` halvings always suffice). -/
def log2F : Nat → Nat → Nat
  | 0, _ => 0
  | fuel + 1, n => if n ≥ 2 then log2F fuel (n / 2) + 1 else 0

/-- `std::bit_width` of a nonnegative integer: number of bits needed, i.e.
`0` for `0` and `⌊log2 n⌋ + 1` otherwise. -/
def bit_width (n : Nat) : Nat := if n = 0 then 0 else log2F n n + 1

/-! ## bits.hpp -/

/-- `set_bit(i)`: an unsigned integer where only the i-th bit is set
(`uintmax_t(1) << i`, on 64-bit words). -/
def set_bit (i : Nat) : Nat := (1 <<< i) % 2 ^ PACK_WORD_BITS

/-- `low_mask(num)`: `~((UINTMAX_MAX << (num - 1)) << 1)` in 64-bit unsigned
arithmetic; complement is `PACK_WORD_MAX - x` for `x ≤ PACK_WORD_MAX`. -/
def low_mask (num : Nat) : Nat :=
  PACK_WORD_MAX - ((((PACK_WORD_MAX <<< (num - 1)) % 2 ^ PACK_WORD_BITS) <<< 1) % 2 ^ PACK_WORD_BITS)

/-- `extract_low(v, num)`: `v & low_mask(num)`. -/
def extract_low (v num : Nat) : Nat := v &&& low_mask num

/-! ## bit_packer.hpp -/

/-- `BitPacker<Output>::FINALIZER_BITS = std::bit_width(PACK_WORD_BITS - 1)`. -/
def FINALIZER_BITS : Nat := bit_width (PACK_WORD_BITS - 1)

/-- `PAYLOAD_BITS = PACK_WORD_BITS - FINALIZER_BITS`. -/
def PAYLOAD_BITS : Nat := PACK_WORD_BITS - FINALIZER_BITS

/-- `FINALIZER_LSH = PAYLOAD_BITS - 1`. -/
def FINALIZER_LSH : Nat := PAYLOAD_BITS - 1

/-- `BitPacker::encode_finalizer(f) = (PackWord(f) - 1) << FINALIZER_LSH`:
the subtraction wraps around in unsigned 64-bit arithmetic, hence the
`+ (2 ^ 64 - 1)` below, and the shift reduces mod `2 ^ 64`. -/
def encode_finalizer (finalizer : Nat) : Nat :=
  (((finalizer + (2 ^ PACK_WORD_BITS - 1)) % 2 ^ PACK_WORD_BITS) <<< FINALIZER_LSH)
    % 2 ^ PACK_WORD_BITS

/-- State of a `BitPacker`. The output iterator is modelled by `out`, the
list of words emitted so far, in order. -/
structure BitPacker where
  pack : Nat
  i : Nat
  numBitsWritten : Nat
  out : List Nat
  finalizeOnClose : Bool
  wasEverFlushed : Bool
deriving DecidableEq, Repr

/-- `BitPacker::BitPacker(out, finalize)`: fresh packer (after `reset()`). -/
def BitPacker.start (fin : Bool) : BitPacker :=
  { pack := 0, i := 0, numBitsWritten := 0, out := [], finalizeOnClose := fin,
    wasEverFlushed := false }

/-- `BitPacker::flush()`: if `i_` is nonzero, emit the current word and reset. -/
def BitPacker.flush (st : BitPacker) : BitPacker :=
  if st.i ≠ 0 then
    { st with wasEverFlushed := true, out := st.out ++ [st.pack], pack := 0, i := 0 }
  else st

/-- `BitPacker::write(bool)`: single-bit write, branchless
`pack_ |= set_bit(i_) & (-bit)`. -/
def BitPacker.writeBit (st : BitPacker) (bit : Bool) : BitPacker :=
  let st := { st with
    pack := st.pack ||| (set_bit st.i &&& (if bit then PACK_WORD_MAX else 0)),
    numBitsWritten := st.numBitsWritten + 1,
    i := st.i + 1 }
  if st.i ≥ PACK_WORD_BITS then st.flush else st

/-- The while-loop of `BitPacker::write(uintmax_t, size_t)`. The loop
terminates in C++ because each iteration consumes `fit = PACK_WORD_BITS - i_`
of `num`, with `fit ≥ 1` given the class invariant `i_ < PACK_WORD_BITS`;
the explicit fuel (instantiated with `num` by the caller, which bounds the
iteration count) makes the same recursion structural. -/
def BitPacker.writeLoop : Nat → BitPacker → Nat → Nat → BitPacker × Nat × Nat
  | 0, st, bits, num => (st, bits, num)
  | fuel + 1, st, bits, num =>
    if st.i + num > PACK_WORD_BITS then
      let fit := PACK_WORD_BITS - st.i
      let st := { st with
        pack := st.pack ||| (extract_low bits fit <<< st.i) % 2 ^ PACK_WORD_BITS,
        i := PACK_WORD_BITS }
      let st := st.flush
      BitPacker.writeLoop fuel st (bits >>> fit) (num - fit)
    else (st, bits, num)

/-- `BitPacker::write(uintmax_t bits, size_t num)`: multi-bit write. -/
def BitPacker.writeBits (st : BitPacker) (bits num : Nat) : BitPacker :=
  let in_num := num
  let res := BitPacker.writeLoop num st bits num
  let st := res.1
  let bits := res.2.1
  let num := res.2.2
  let st :=
    if num ≠ 0 then
      let st := { st with
        pack := st.pack ||| (extract_low bits num <<< st.i) % 2 ^ PACK_WORD_BITS,
        i := st.i + num }
      if st.i ≥ PACK_WORD_BITS then st.flush else st
    else st
  { st with numBitsWritten := st.numBitsWritten + in_num }

/-- `BitPacker::~BitPacker()`: write finalization info if enabled and the
stream is non-empty, then flush. -/
def BitPacker.destroy (st : BitPacker) : BitPacker :=
  let non_empty := st.wasEverFlushed || decide (st.i > 0)
  let st :=
    if st.finalizeOnClose && non_empty then
      let finalizer := encode_finalizer st.i
      let st := if st.i ≥ PAYLOAD_BITS then st.flush else st
      { st with pack := st.pack ||| finalizer, i := PACK_WORD_BITS }
    else st
  st.flush

/-- `BitPacker::pack_pos()`. -/
def BitPacker.pack_pos (st : BitPacker) : Nat := st.i % PACK_WORD_BITS

/-! ## bit_unpacker.hpp -/

/-- `BitUnpacker::decode_finalizer(x)`. -/
def decode_finalizer (x : Nat) : Nat :=
  let f := (x >>> FINALIZER_LSH + 1) % PACK_WORD_BITS
  if f ≠ 0 then f else PACK_WORD_BITS

/-- State of a `BitUnpacker` in sized mode. The iterator range
`[in_, end_)` is modelled by `input`, the list of words not yet fetched. -/
structure BitUnpacker where
  pack : Nat
  next : Nat
  i : Nat
  input : List Nat
  final : Bool
  finalAvail : Nat
deriving DecidableEq, Repr

/-- `BitUnpacker::BitUnpacker(in, end)` (sized mode). In the source,
`pack_` (and, for an empty input, `next_`) start uninitialized and are
never observed before being assigned; they are 0 here. -/
def BitUnpacker.start (input : List Nat) : BitUnpacker :=
  match input with
  | [] => { pack := 0, next := 0, i := PACK_WORD_BITS, input := [], final := true,
            finalAvail := 0 }
  | w :: rest => { pack := 0, next := w, i := PACK_WORD_BITS, input := rest,
                   final := false, finalAvail := 0 }

/-- `BitUnpacker::advance()`. -/
def BitUnpacker.advance (st : BitUnpacker) : BitUnpacker :=
  let st := { st with pack := st.next, i := 0 }
  if st.final then st
  else
    match st.input with
    | [] => { st with finalAvail := decode_finalizer st.pack, final := true }
    | w :: rest =>
      let st := { st with next := w, input := rest }
      if rest.isEmpty then
        let avail := decode_finalizer w
        if avail ≥ PAYLOAD_BITS then { st with finalAvail := avail, final := true }
        else st
      else st

/-- `BitUnpacker::read()`: single-bit read. -/
def BitUnpacker.readBit (st : BitUnpacker) : Bool × BitUnpacker :=
  let st := if st.i ≥ PACK_WORD_BITS then st.advance else st
  (st.pack &&& set_bit st.i != 0, { st with i := st.i + 1 })

/-- The while-loop of `BitUnpacker::read(size_t)`; fuel as in
`BitPacker.writeLoop` (each iteration consumes `avail ≥ 1` of `num` given
`i_ < PACK_WORD_BITS`, which holds after every `advance`). -/
def BitUnpacker.readLoop : Nat → BitUnpacker → Nat → Nat → Nat → BitUnpacker × Nat × Nat × Nat
  | 0, st, bits, j, num => (st, bits, j, num)
  | fuel + 1, st, bits, j, num =>
    if st.i + num > PACK_WORD_BITS then
      let avail := PACK_WORD_BITS - st.i
      let bits := bits ||| (extract_low (st.pack >>> st.i) avail <<< j) % 2 ^ PACK_WORD_BITS
      BitUnpacker.readLoop fuel st.advance bits (j + avail) (num - avail)
    else (st, bits, j, num)

/-- `BitUnpacker::read(size_t num)`: multi-bit read. -/
def BitUnpacker.readBits (st : BitUnpacker) (num : Nat) : Nat × BitUnpacker :=
  let st := if st.i ≥ PACK_WORD_BITS then st.advance else st
  let res := BitUnpacker.readLoop num st 0 0 num
  let st := res.1
  let bits := res.2.1
  let j := res.2.2.1
  let num := res.2.2.2
  if num ≠ 0 then
    (bits ||| (extract_low (st.pack >>> st.i) num <<< j) % 2 ^ PACK_WORD_BITS,
     { st with i := st.i + num })
  else (bits, st)

/-- `BitUnpacker::pack_pos()`. -/
def BitUnpacker.pack_pos (st : BitUnpacker) : Nat := st.i % PACK_WORD_BITS

/-- `BitUnpacker::good()`. -/
def BitUnpacker.good (st : BitUnpacker) : Bool :=
  !st.final || decide (st.i < st.finalAvail)

/-- `BitUnpacker::eof()`. -/
def BitUnpacker.eof (st : BitUnpacker) : Bool :=
  st.final && decide (st.i ≥ st.finalAvail)

/-! ## char_packer.hpp

Bytes are modelled as `Nat` values below 256 (the bit pattern of the
`char`). `CharPacker::advance` assembles `sizeof(PackWord) = 8` source
bytes into one word, most significant byte first: on a little-endian host
the loop stores the first byte at memory offset 7 (the most significant
byte of the word) down to offset 0, and on a big-endian host at offset 0
(again the most significant byte) upward, so in both cases the word value
is `b0*256^7 + b1*256^6 + ... + b7`. -/

/-- The word assembled by `CharPacker::advance` from one block of bytes,
first byte into the most significant position. -/
def charPackWord (bytes : List Nat) : Nat :=
  bytes.foldl (fun acc b => acc * 256 + b) 0

/-- State of a `CharPacker`: the unread byte source `[in_, end_)`, the
current word, and the end flag. -/
structure CharPacker where
  input : List Nat
  current : Nat
  reached_end : Bool
deriving DecidableEq, Repr

/-- `CharPacker::advance()`: sets `reached_end_ = (in_ == end_)` and, if not
at the end, unconditionally reads `sizeof(PackWord) = 8` bytes. If fewer
than 8 bytes remain, the loop dereferences the source past its end, which
is undefined behavior: modelled as `none`. -/
def CharPacker.advance (st : CharPacker) : Option CharPacker :=
  if st.input.isEmpty then some { st with reached_end := true }
  else if 8 ≤ st.input.length then
    some { input := st.input.drop 8, current := charPackWord (st.input.take 8),
           reached_end := false }
  else none

/-- `CharPacker::CharPacker(in, end)`: construction immediately advances. -/
def CharPacker.start (input : List Nat) : Option CharPacker :=
  CharPacker.advance { input := input, current := 0, reached_end := false }

/-- Draining a `CharPacker` into a word sink
(`std::copy(CharPacker(b, e), {}, sink)`): emit `current` and advance until
the end state is reached. Structural recursion over eight-byte blocks
mirrors the 8 reads per `advance`. -/
def charPackList : List Nat → Option (List Nat)
  | [] => some []
  | b0 :: b1 :: b2 :: b3 :: b4 :: b5 :: b6 :: b7 :: rest =>
    (charPackList rest).map (fun ws => charPackWord [b0, b1, b2, b3, b4, b5, b6, b7] :: ws)
  | _ => none

/-! ## char_unpacker.hpp -/

/-- The bytes emitted by `CharUnpacker::operator++` for one word: 8 bytes,
most significant first (the little-endian loop reads memory offsets 7 down
to 0, i.e. `(w >>> 8*k) % 256` for `k = 7, ..., 0`). -/
def charUnpackWord (w : Nat) : List Nat :=
  [w / 256 ^ 7 % 256, w / 256 ^ 6 % 256, w / 256 ^ 5 % 256, w / 256 ^ 4 % 256,
   w / 256 ^ 3 % 256, w / 256 ^ 2 % 256, w / 256 ^ 1 % 256, w % 256]

/-- Writing a word sequence through a `CharUnpacker` into a byte sink. -/
def charUnpackList (ws : List Nat) : List Nat :=
  ws.flatMap charUnpackWord

/-! ## overlapping_blocks.hpp

The input stream is modelled by the list `rest` of not-yet-consumed bytes;
`stream.read(p, n)` yields `rest.take n` with `gcount = min n rest.length`,
and `stream.get()` yields `rest.head?` (`none` is the EOF token). The
buffer of size `overlap_ + block_size_` is modelled by its meaningful
regions: `ovl` (always of length `overlap_`, the bytes at buffer positions
`[0, overlap_)`, i.e. block-local indices `[-overlap, 0)`) and `blk` (the
`cur_size_` bytes starting at `cur_begin_`). -/

structure OverlappingBlocks where
  block_size : Nat
  overlap : Nat
  ovl : List Nat
  blk : List Nat
  probe : Option Nat
  rest : List Nat
  cur_offs : Nat
deriving DecidableEq, Repr

/-- `OverlappingBlocks::first()`. -/
def OverlappingBlocks.first (st : OverlappingBlocks) : Bool := st.cur_offs = 0

/-- `OverlappingBlocks::last()`: `probe_ == EOF_TOKEN`. -/
def OverlappingBlocks.lastBlock (st : OverlappingBlocks) : Bool := st.probe.isNone

/-- `OverlappingBlocks::read_next()`. In the non-first branch the stored
probe character is written at `cur_begin_[0]`; that branch is reached only
with a valid probe (`advance` checks `last()` first), so the `getD 0`
default is never exercised. -/
def OverlappingBlocks.read_next (st : OverlappingBlocks) : OverlappingBlocks :=
  let (blk, rest) :=
    if st.first then (st.rest.take st.block_size, st.rest.drop st.block_size)
    else (st.probe.getD 0 :: st.rest.take (st.block_size - 1),
          st.rest.drop (st.block_size - 1))
  { st with blk := blk, probe := rest.head?, rest := rest.tail }

/-- `OverlappingBlocks(stream, block_size, overlap)` followed by `init`:
zero-fill the overlap region, set `cur_offs_ = 0`, read the first block. -/
def OverlappingBlocks.init (input : List Nat) (block_size overlap : Nat) :
    OverlappingBlocks :=
  OverlappingBlocks.read_next
    { block_size := block_size, overlap := overlap,
      ovl := List.replicate overlap 0, blk := [], probe := none,
      rest := input, cur_offs := 0 }

/-- `OverlappingBlocks::advance()`. The slide loop copies
`buffer_[i] := cur_begin_[cur_size_ - overlap_ + i]` for `i < overlap_`;
in buffer coordinates that is position `cur_size_ + i` of the
concatenation `ovl ++ blk` (length `overlap_ + cur_size_`), so the new
overlap region is `(ovl ++ blk).drop cur_size_`. -/
def OverlappingBlocks.advance (st : OverlappingBlocks) :
    Bool × OverlappingBlocks :=
  if st.lastBlock then (false, st)
  else
    let st := { st with ovl := (st.ovl ++ st.blk).drop st.blk.length,
                        cur_offs := st.cur_offs + st.blk.length }
    let st := st.read_next
    (decide (0 < st.blk.length), st)

/-- `OverlappingBlocks::operator[]` for nonnegative block-local indices. -/
def OverlappingBlocks.at (st : OverlappingBlocks) (i : Nat) : Nat :=
  st.blk.getD i 0

/-- `OverlappingBlocks::operator[]` for the negative indices `[-overlap, 0)`:
`atNeg st k` is the character at block-local index `-(overlap - k)`,
i.e. buffer position `k`. -/
def OverlappingBlocks.atNeg (st : OverlappingBlocks) (k : Nat) : Nat :=
  st.ovl.getD k 0

/-! ## Spec-level harness definitions -/

/-- Writing a sequence of single bits through `BitPacker::write(bool)`. -/
def writeMany (st : BitPacker) (l : List Bool) : BitPacker :=
  l.foldl BitPacker.writeBit st

/-- Writing a sequence of (value, width) fields through
`BitPacker::write(uintmax_t, size_t)`, starting from a fresh finalizing
packer. -/
def packState (fields : List (Nat × Nat)) : BitPacker :=
  fields.foldl (fun st vk => st.writeBits vk.1 vk.2) (BitPacker.start true)

/-- The words on the wire after writing `fields` and destroying the packer. -/
def packFields (fields : List (Nat × Nat)) : List Nat :=
  (packState fields).destroy.out

/-- Reading back a sequence of fields (only the widths matter) through
`BitUnpacker::read(size_t)`. -/
def readFields (st : BitUnpacker) : List (Nat × Nat) → List Nat × BitUnpacker
  | [] => ([], st)
  | vk :: rest =>
    let r1 := st.readBits vk.2
    let r2 := readFields r1.2 rest
    (r1.1 :: r2.1, r2.2)

/-- The abstract bit stream denoted by a field sequence: a pair `(N, n)`
where `n` is the total bit count and `N < 2 ^ n` has the `k` low bits of
the first value in its bits `[0, k)`, the next value above them, etc. -/
def streamOf : List (Nat × Nat) → Nat × Nat
  | [] => (0, 0)
  | vk :: rest =>
    (vk.1 % 2 ^ vk.2 + (streamOf rest).1 * 2 ^ vk.2, vk.2 + (streamOf rest).2)

/-- The full 64-bit words of the bit stream `(N, n)`. -/
def wordsOf (N n : Nat) : List Nat :=
  (List.range (n / PACK_WORD_BITS)).map fun j => N / 2 ^ (PACK_WORD_BITS * j) % 2 ^ PACK_WORD_BITS

/-- The finalized wire format of the bit stream `(N, n)`: its full words
followed by the last word carrying the finalizer (and, when the trailing
bit count collides with the finalizer region or the stream ends at a word
boundary, a separate finalizer-only extra word). -/
def finalWords (N n : Nat) : List Nat :=
  if n = 0 then []
  else
    let q := n / PACK_WORD_BITS
    let r := n % PACK_WORD_BITS
    if r = 0 then wordsOf N n ++ [encode_finalizer 0]
    else if r ≥ PAYLOAD_BITS then
      wordsOf N n ++ [N / 2 ^ (PACK_WORD_BITS * q), encode_finalizer r]
    else wordsOf N n ++ [N / 2 ^ (PACK_WORD_BITS * q) + encode_finalizer r]

/-- `k` applications of `BitUnpacker::advance` to a fresh unpacker. -/
def advIter (ws : List Nat) : Nat → BitUnpacker
  | 0 => BitUnpacker.start ws
  | k + 1 => (advIter ws k).advance

/-- The unpacker state after reading the first `p` bits of the word
sequence `ws`: lazily, position `p > 0` lives in word `(p + 63) / 64 - 1`
at in-word offset `p - 64 * ((p + 63) / 64 - 1)` (which is 64 right at a
word boundary, the next word not yet promoted). -/
def stateAt (ws : List Nat) (p : Nat) : BitUnpacker :=
  if p = 0 then BitUnpacker.start ws
  else { advIter ws ((p + 63) / 64) with i := p - 64 * ((p + 63) / 64 - 1) }

/-- The finalizer layout exactly as the specification's wire-format section
words it: the value `(n - 1) mod W` stored in the `F` bits at bit positions
`[W - F, W)`, i.e. shifted left by `W - F = PAYLOAD_BITS`. Stated from the
spec for comparison with `encode_finalizer`, which the source derives from
`FINALIZER_LSH = PAYLOAD_BITS - 1`. -/
def specFinalizerEncode (n : Nat) : Nat :=
  (n - 1) % PACK_WORD_BITS * 2 ^ (PACK_WORD_BITS - FINALIZER_BITS)

/-! ## Constant evaluations and arithmetic bridges -/

@[simp] theorem PACK_WORD_BITS_def : PACK_WORD_BITS = 64 := rfl

@[simp] theorem FINALIZER_BITS_def : FINALIZER_BITS = 6 := by decide

@[simp] theorem PAYLOAD_BITS_def : PAYLOAD_BITS = 58 := by decide

@[simp] theorem FINALIZER_LSH_def : FINALIZER_LSH = 57 := by decide

@[simp] theorem PACK_WORD_MAX_def : PACK_WORD_MAX = 2 ^ 64 - 1 := rfl

theorem low_mask_eq {num : Nat} (h1 : 1 ≤ num) (h2 : num ≤ 64) :
    low_mask num = 2 ^ num - 1 := by
  interval_cases num <;> decide

theorem extract_low_eq_mod {num : Nat} (v : Nat) (h1 : 1 ≤ num) (h2 : num ≤ 64) :
    extract_low v num = v % 2 ^ num := by
  rw [extract_low, low_mask_eq h1 h2, Nat.and_pow_two_sub_one_eq_mod]

theorem set_bit_eq {i : Nat} (h : i < 64) : set_bit i = 2 ^ i := by
  rw [set_bit, Nat.shiftLeft_eq, one_mul, PACK_WORD_BITS_def,
    Nat.mod_eq_of_lt (Nat.pow_lt_pow_right one_lt_two h)]

theorem lor_eq_add {a : Nat} (b i : Nat) (ha : a < 2 ^ i) :
    a ||| b * 2 ^ i = a + b * 2 ^ i := by
  have h := Nat.mul_add_lt_is_or ha b
  rw [Nat.lor_comm, mul_comm b, ← h]
  ring

theorem shl_mod_eq {x c i : Nat} (hx : x < 2 ^ c) (hci : c + i ≤ 64) :
    (x <<< i) % 2 ^ 64 = x * 2 ^ i := by
  rw [Nat.shiftLeft_eq]
  apply Nat.mod_eq_of_lt
  calc x * 2 ^ i < 2 ^ c * 2 ^ i :=
        mul_lt_mul_of_pos_right hx (Nat.two_pow_pos i)
  _ = 2 ^ (c + i) := by rw [← pow_add]
  _ ≤ 2 ^ 64 := Nat.pow_le_pow_right (by norm_num) hci

theorem mod_pow_split (v a b : Nat) :
    v % 2 ^ (a + b) = v % 2 ^ a + v / 2 ^ a % 2 ^ b * 2 ^ a := by
  rw [pow_add, Nat.mod_mul]
  ring

theorem div_pow_lt {N q i : Nat} (h : N < 2 ^ (64 * q + i)) :
    N / 2 ^ (64 * q) < 2 ^ i := by
  rw [Nat.div_lt_iff_lt_mul (Nat.two_pow_pos _), ← pow_add, Nat.add_comm]
  exact h

/-! ## Packer invariant -/

/-- The synchronization invariant between a packer state and the abstract
bit stream `(N, n)` written so far (`numBitsWritten` is tracked apart). -/
def Sync (st : BitPacker) (N n : Nat) : Prop :=
  N < 2 ^ n ∧
  st.i = n % 64 ∧
  st.pack = N / 2 ^ (64 * (n / 64)) ∧
  st.out = wordsOf N n ∧
  st.wasEverFlushed = decide (64 ≤ n)

theorem sync_start (fin : Bool) : Sync (BitPacker.start fin) 0 0 := by
  refine ⟨by norm_num, rfl, rfl, rfl, rfl⟩

theorem sync_i_lt {st N n} (h : Sync st N n) : st.i < 64 := by
  rw [h.2.1]; exact Nat.mod_lt _ (by norm_num)

theorem sync_pack_lt {st N n} (h : Sync st N n) : st.pack < 2 ^ (n % 64) := by
  rw [h.2.2.1]
  apply div_pow_lt
  rw [Nat.div_add_mod]
  exact h.1

theorem wordsOf_congr {N n n' : Nat} (h : n / 64 = n' / 64) :
    wordsOf N n = wordsOf N n' := by
  unfold wordsOf
  rw [PACK_WORD_BITS_def, h]

theorem wordsOf_add_mul_pow {N n : Nat} (m e : Nat) (he : 64 * (n / 64) ≤ e) :
    wordsOf (N + m * 2 ^ e) n = wordsOf N n := by
  unfold wordsOf
  rw [PACK_WORD_BITS_def]
  refine List.map_congr_left fun j hj => ?_
  rw [List.mem_range] at hj
  have hj64 : 64 * j + 64 ≤ e := by
    have h1 : j + 1 ≤ n / 64 := hj
    have h2 : 64 * (j + 1) ≤ 64 * (n / 64) := Nat.mul_le_mul_left 64 h1
    omega
  have hsplit : m * 2 ^ e = m * 2 ^ (e - 64 * j - 64) * 2 ^ 64 * 2 ^ (64 * j) := by
    have hd : e - 64 * j - 64 + 64 + 64 * j = e := by omega
    calc m * 2 ^ e = m * 2 ^ (e - 64 * j - 64 + 64 + 64 * j) := by rw [hd]
    _ = m * 2 ^ (e - 64 * j - 64) * 2 ^ 64 * 2 ^ (64 * j) := by
          rw [pow_add, pow_add]; ring
  rw [hsplit, Nat.add_mul_div_right _ _ (Nat.two_pow_pos _),
    Nat.add_mul_mod_self_right]

theorem wordsOf_boundary (N : Nat) (q : Nat) :
    wordsOf N (64 * (q + 1)) = wordsOf N (64 * q) ++ [N / 2 ^ (64 * q) % 2 ^ 64] := by
  unfold wordsOf
  rw [PACK_WORD_BITS_def, Nat.mul_div_cancel_left _ (by norm_num : (0:Nat) < 64),
    Nat.mul_div_cancel_left _ (by norm_num : (0:Nat) < 64), List.range_succ,
    List.map_append, List.map_singleton]

theorem append_lt {N n m c : Nat} (hN : N < 2 ^ n) (hm : m < 2 ^ c) :
    N + m * 2 ^ n < 2 ^ (n + c) := by
  calc N + m * 2 ^ n < 2 ^ n + m * 2 ^ n := by linarith
  _ = (m + 1) * 2 ^ n := by ring
  _ ≤ 2 ^ c * 2 ^ n := Nat.mul_le_mul_right _ hm
  _ = 2 ^ (n + c) := by rw [← pow_add, Nat.add_comm]

theorem stream_cat (N n bits d rem : Nat) :
    N + bits % 2 ^ d * 2 ^ n + bits / 2 ^ d % 2 ^ rem * 2 ^ (n + d)
      = N + bits % 2 ^ (d + rem) * 2 ^ n := by
  rw [mod_pow_split bits d rem, pow_add]
  ring

theorem chunk_pack_eq {st : BitPacker} {N n : Nat} (h : Sync st N n) (B cnt : Nat)
    (h1 : 1 ≤ cnt) (h2 : n % 64 + cnt ≤ 64) :
    st.pack ||| (extract_low B cnt <<< st.i) % 2 ^ PACK_WORD_BITS
      = N / 2 ^ (64 * (n / 64)) + B % 2 ^ cnt * 2 ^ (n % 64) := by
  rw [PACK_WORD_BITS_def, extract_low_eq_mod B h1 (by omega), h.2.1,
    shl_mod_eq (Nat.mod_lt B (Nat.two_pow_pos cnt)) (by omega),
    lor_eq_add _ _ (sync_pack_lt h), h.2.2.1]

theorem chunk_noflush_sync {st : BitPacker} {N n : Nat} (h : Sync st N n) (B cnt : Nat)
    (h1 : 1 ≤ cnt) (h2 : n % 64 + cnt < 64) :
    Sync { st with pack := st.pack ||| (extract_low B cnt <<< st.i) % 2 ^ PACK_WORD_BITS,
                   i := st.i + cnt }
      (N + B % 2 ^ cnt * 2 ^ n) (n + cnt) := by
  have hN := h.1
  have hm : B % 2 ^ cnt < 2 ^ cnt := Nat.mod_lt B (Nat.two_pow_pos cnt)
  have hmod : (n + cnt) % 64 = n % 64 + cnt := by omega
  have hdiv : (n + cnt) / 64 = n / 64 := by omega
  have hexp : B % 2 ^ cnt * 2 ^ n = B % 2 ^ cnt * 2 ^ (n % 64) * 2 ^ (64 * (n / 64)) := by
    rw [mul_assoc, ← pow_add]
    congr 2
    omega
  refine ⟨append_lt hN hm, ?_, ?_, ?_, ?_⟩
  · show st.i + cnt = (n + cnt) % 64
    rw [h.2.1, hmod]
  · show st.pack ||| (extract_low B cnt <<< st.i) % 2 ^ PACK_WORD_BITS
      = (N + B % 2 ^ cnt * 2 ^ n) / 2 ^ (64 * ((n + cnt) / 64))
    rw [chunk_pack_eq h B cnt h1 (by omega), hdiv, hexp,
      Nat.add_mul_div_right _ _ (Nat.two_pow_pos _)]
  · show st.out = wordsOf (N + B % 2 ^ cnt * 2 ^ n) (n + cnt)
    rw [wordsOf_congr (by omega : (n + cnt) / 64 = n / 64),
      wordsOf_add_mul_pow _ n (Nat.mul_div_le n 64), h.2.2.2.1]
  · show st.wasEverFlushed = decide (64 ≤ n + cnt)
    rw [h.2.2.2.2]
    have : 64 ≤ n ↔ 64 ≤ n + cnt := by omega
    exact decide_eq_decide.mpr this

theorem chunk_flush_sync {st : BitPacker} {N n : Nat} (h : Sync st N n) (B cnt iv : Nat)
    (h1 : 1 ≤ cnt) (h2 : n % 64 + cnt = 64) (hiv : iv ≠ 0) :
    Sync (BitPacker.flush { st with
            pack := st.pack ||| (extract_low B cnt <<< st.i) % 2 ^ PACK_WORD_BITS,
            i := iv })
      (N + B % 2 ^ cnt * 2 ^ n) (n + cnt) := by
  have hN := h.1
  have hm : B % 2 ^ cnt < 2 ^ cnt := Nat.mod_lt B (Nat.two_pow_pos cnt)
  have hlt : N + B % 2 ^ cnt * 2 ^ n < 2 ^ (n + cnt) := append_lt hN hm
  have hn1 : n + cnt = 64 * (n / 64 + 1) := by omega
  have hexp : B % 2 ^ cnt * 2 ^ n = B % 2 ^ cnt * 2 ^ (n % 64) * 2 ^ (64 * (n / 64)) := by
    rw [mul_assoc, ← pow_add]
    congr 2
    omega
  have hdivval : (N + B % 2 ^ cnt * 2 ^ n) / 2 ^ (64 * (n / 64))
      = N / 2 ^ (64 * (n / 64)) + B % 2 ^ cnt * 2 ^ (n % 64) := by
    rw [hexp, Nat.add_mul_div_right _ _ (Nat.two_pow_pos _)]
  have hdivlt : (N + B % 2 ^ cnt * 2 ^ n) / 2 ^ (64 * (n / 64)) < 2 ^ 64 := by
    apply div_pow_lt
    rw [show 64 * (n / 64) + 64 = n + cnt from by omega]
    exact hlt
  rw [BitPacker.flush, if_pos hiv]
  refine ⟨hlt, ?_, ?_, ?_, ?_⟩
  · show (0 : Nat) = (n + cnt) % 64
    omega
  · show (0 : Nat) = (N + B % 2 ^ cnt * 2 ^ n) / 2 ^ (64 * ((n + cnt) / 64))
    rw [show (n + cnt) / 64 = n / 64 + 1 from by omega, ← hn1,
      Nat.div_eq_of_lt hlt]
  · show st.out ++ [st.pack ||| (extract_low B cnt <<< st.i) % 2 ^ PACK_WORD_BITS]
      = wordsOf (N + B % 2 ^ cnt * 2 ^ n) (n + cnt)
    have hws : wordsOf (N + B % 2 ^ cnt * 2 ^ n) n = wordsOf N n := by
      rw [wordsOf_add_mul_pow _ n (Nat.mul_div_le n 64)]
    rw [chunk_pack_eq h B cnt h1 (by omega),
      wordsOf_congr (show (n + cnt) / 64 = 64 * (n / 64 + 1) / 64 from by omega),
      wordsOf_boundary,
      wordsOf_congr (show 64 * (n / 64) / 64 = n / 64 from by omega),
      hws, h.2.2.2.1, Nat.mod_eq_of_lt hdivlt, hdivval]
  · show true = decide (64 ≤ n + cnt)
    have : 64 ≤ n + cnt := by omega
    simp [this]

theorem flush_numBitsWritten (st : BitPacker) :
    st.flush.numBitsWritten = st.numBitsWritten := by
  unfold BitPacker.flush
  split <;> rfl

theorem flush_finalizeOnClose (st : BitPacker) :
    st.flush.finalizeOnClose = st.finalizeOnClose := by
  unfold BitPacker.flush
  split <;> rfl

theorem writeLoop_spec : ∀ (fuel : Nat) (st : BitPacker) (bits num N n : Nat),
    Sync st N n → num ≤ fuel →
    ∃ st2 rem, BitPacker.writeLoop fuel st bits num = (st2, bits >>> (num - rem), rem) ∧
      Sync st2 (N + bits % 2 ^ (num - rem) * 2 ^ n) (n + (num - rem)) ∧
      rem ≤ num ∧ st2.i + rem ≤ 64 ∧
      st2.numBitsWritten = st.numBitsWritten ∧
      st2.finalizeOnClose = st.finalizeOnClose := by
  intro fuel
  induction fuel with
  | zero =>
    intro st bits num N n h hle
    have hnum : num = 0 := by omega
    subst hnum
    refine ⟨st, 0, ?_, ?_, by omega, ?_, rfl, rfl⟩
    · simp [BitPacker.writeLoop]
    · simp only [Nat.sub_self, pow_zero, Nat.mod_one, Nat.zero_mul, Nat.add_zero]
      exact h
    · have := sync_i_lt h
      omega
  | succ fuel ih =>
    intro st bits num N n h hle
    by_cases hguard : st.i + num > PACK_WORD_BITS
    · have hr : st.i = n % 64 := h.2.1
      have hi64 : st.i < 64 := sync_i_lt h
      have hfit1 : 1 ≤ PACK_WORD_BITS - st.i := by
        rw [PACK_WORD_BITS_def]; omega
      have hfitset : n % 64 + (PACK_WORD_BITS - st.i) = 64 := by
        rw [PACK_WORD_BITS_def] at hguard ⊢; omega
      have hsync3 := chunk_flush_sync h bits (PACK_WORD_BITS - st.i) PACK_WORD_BITS
        hfit1 hfitset (by rw [PACK_WORD_BITS_def]; omega)
      have h64 : PACK_WORD_BITS = 64 := rfl
      obtain ⟨st2, rem, heq, hsync2, hrem, hile, hnbw, hfin⟩ :=
        ih _ (bits >>> (PACK_WORD_BITS - st.i)) (num - (PACK_WORD_BITS - st.i)) _ _
          hsync3 (by omega)
      refine ⟨st2, rem, ?_, ?_, ?_, hile, ?_, ?_⟩
      · rw [BitPacker.writeLoop, if_pos hguard, heq, ← Nat.shiftRight_add]
        have hfit : PACK_WORD_BITS - st.i + (num - (PACK_WORD_BITS - st.i) - rem)
            = num - rem := by omega
        rw [hfit]
      · have harith : N + bits % 2 ^ (PACK_WORD_BITS - st.i) * 2 ^ n
              + bits >>> (PACK_WORD_BITS - st.i) % 2 ^ (num - (PACK_WORD_BITS - st.i) - rem)
                * 2 ^ (n + (PACK_WORD_BITS - st.i))
            = N + bits % 2 ^ (num - rem) * 2 ^ n := by
          rw [Nat.shiftRight_eq_div_pow, stream_cat]
          have hfit : PACK_WORD_BITS - st.i + (num - (PACK_WORD_BITS - st.i) - rem)
              = num - rem := by omega
          rw [hfit]
        have hnarith : n + (PACK_WORD_BITS - st.i) + (num - (PACK_WORD_BITS - st.i) - rem)
            = n + (num - rem) := by omega
        rw [← harith, ← hnarith]
        exact hsync2
      · omega
      · rw [hnbw, flush_numBitsWritten]
      · rw [hfin, flush_finalizeOnClose]
    · have h64 : PACK_WORD_BITS = 64 := rfl
      refine ⟨st, num, ?_, ?_, le_rfl, by omega, rfl, rfl⟩
      · rw [BitPacker.writeLoop, if_neg hguard]
        simp
      · simp only [Nat.sub_self, pow_zero, Nat.mod_one, Nat.zero_mul, Nat.add_zero]
        exact h

theorem sync_nbw_update {st : BitPacker} {N n : Nat} (x : Nat) (h : Sync st N n) :
    Sync { st with numBitsWritten := x } N n := by
  unfold Sync at h ⊢
  exact h

theorem writeBits_sync {st : BitPacker} {N n : Nat} (h : Sync st N n) (bits num : Nat) :
    Sync (st.writeBits bits num) (N + bits % 2 ^ num * 2 ^ n) (n + num) ∧
    (st.writeBits bits num).numBitsWritten = st.numBitsWritten + num ∧
    (st.writeBits bits num).finalizeOnClose = st.finalizeOnClose := by
  obtain ⟨st2, rem, heq, hsync2, hrem, hile, hnbw, hfin⟩ :=
    writeLoop_spec num st bits num N n h le_rfl
  have h64 : PACK_WORD_BITS = 64 := rfl
  have hstream : N + bits % 2 ^ (num - rem) * 2 ^ n
      + (bits >>> (num - rem)) % 2 ^ rem * 2 ^ (n + (num - rem))
      = N + bits % 2 ^ num * 2 ^ n := by
    rw [Nat.shiftRight_eq_div_pow, stream_cat,
      show num - rem + rem = num from by omega]
  have hnn : n + (num - rem) + rem = n + num := by omega
  simp only [BitPacker.writeBits, heq]
  by_cases hrem0 : rem = 0
  · subst hrem0
    rw [if_neg (by simp)]
    rw [Nat.sub_zero] at hsync2
    refine ⟨sync_nbw_update _ hsync2, ?_, hfin⟩
    show st2.numBitsWritten + num = st.numBitsWritten + num
    rw [hnbw]
  · rw [if_pos hrem0]
    by_cases hfl : st2.i + rem ≥ PACK_WORD_BITS
    · rw [if_pos hfl]
      have hs4 := chunk_flush_sync hsync2 (bits >>> (num - rem)) rem (st2.i + rem)
        (by omega) (by rw [← hsync2.2.1]; omega) (by omega)
      rw [hstream, hnn] at hs4
      refine ⟨sync_nbw_update _ hs4, ?_, ?_⟩
      · show (BitPacker.flush _).numBitsWritten + num = st.numBitsWritten + num
        rw [flush_numBitsWritten]
        show st2.numBitsWritten + num = st.numBitsWritten + num
        rw [hnbw]
      · show (BitPacker.flush _).finalizeOnClose = st.finalizeOnClose
        rw [flush_finalizeOnClose]
        exact hfin
    · rw [if_neg hfl]
      have hs4 := chunk_noflush_sync hsync2 (bits >>> (num - rem)) rem
        (by omega) (by rw [← hsync2.2.1]; omega)
      rw [hstream, hnn] at hs4
      refine ⟨sync_nbw_update _ hs4, ?_, hfin⟩
      show st2.numBitsWritten + num = st.numBitsWritten + num
      rw [hnbw]

theorem writeBit_eq_writeBits {st : BitPacker} (hi : st.i < 64) (b : Bool) :
    st.writeBit b = st.writeBits (cond b 1 0) 1 := by
  have h64 : PACK_WORD_BITS = 64 := rfl
  have hguard : ¬ (st.i + 1 > PACK_WORD_BITS) := by omega
  have hloop : BitPacker.writeLoop 1 st (cond b 1 0) 1 = (st, cond b 1 0, 1) := by
    show BitPacker.writeLoop (0 + 1) st (cond b 1 0) 1 = (st, cond b 1 0, 1)
    rw [BitPacker.writeLoop, if_neg hguard]
  have hpack : set_bit st.i &&& (if b then PACK_WORD_MAX else 0)
      = (extract_low (cond b 1 0) 1 <<< st.i) % 2 ^ PACK_WORD_BITS := by
    cases b
    · show set_bit st.i &&& 0 = (extract_low 0 1 <<< st.i) % 2 ^ PACK_WORD_BITS
      rw [Nat.and_zero, extract_low_eq_mod 0 le_rfl (by norm_num)]
      simp
    · show set_bit st.i &&& PACK_WORD_MAX = (extract_low 1 1 <<< st.i) % 2 ^ PACK_WORD_BITS
      rw [set_bit_eq hi, PACK_WORD_MAX_def, Nat.and_pow_two_sub_one_eq_mod,
        extract_low_eq_mod 1 le_rfl (by norm_num), PACK_WORD_BITS_def,
        Nat.mod_eq_of_lt (Nat.pow_lt_pow_right (by norm_num) hi),
        shl_mod_eq (by norm_num : 1 % 2 ^ 1 < 2 ^ 1) (by omega)]
      norm_num
  simp only [BitPacker.writeBit, BitPacker.writeBits, hloop, hpack]
  by_cases hi1 : st.i + 1 ≥ PACK_WORD_BITS
  · simp only [if_pos hi1, if_pos (show (1:Nat) ≠ 0 from by norm_num),
      BitPacker.flush, if_pos (show st.i + 1 ≠ 0 from by omega)]
  · simp only [if_neg hi1, if_pos (show (1:Nat) ≠ 0 from by norm_num)]

theorem streamOf_bound : ∀ fields : List (Nat × Nat),
    (streamOf fields).1 < 2 ^ (streamOf fields).2
  | [] => by simp [streamOf]
  | (v, k) :: rest => by
    have ih := streamOf_bound rest
    show v % 2 ^ k + (streamOf rest).1 * 2 ^ k < 2 ^ (k + (streamOf rest).2)
    have h1 : v % 2 ^ k < 2 ^ k := Nat.mod_lt v (Nat.two_pow_pos k)
    calc v % 2 ^ k + (streamOf rest).1 * 2 ^ k
        < 2 ^ k + (streamOf rest).1 * 2 ^ k := by omega
    _ = ((streamOf rest).1 + 1) * 2 ^ k := by ring
    _ ≤ 2 ^ (streamOf rest).2 * 2 ^ k := Nat.mul_le_mul_right _ ih
    _ = 2 ^ (k + (streamOf rest).2) := by rw [← pow_add, Nat.add_comm]

theorem foldl_writeBits_sync : ∀ (fields : List (Nat × Nat)) (st : BitPacker) (N n : Nat),
    Sync st N n →
    Sync (fields.foldl (fun s vk => s.writeBits vk.1 vk.2) st)
        (N + (streamOf fields).1 * 2 ^ n) (n + (streamOf fields).2) ∧
      (fields.foldl (fun s vk => s.writeBits vk.1 vk.2) st).numBitsWritten
        = st.numBitsWritten + (streamOf fields).2 ∧
      (fields.foldl (fun s vk => s.writeBits vk.1 vk.2) st).finalizeOnClose
        = st.finalizeOnClose
  | [], st, N, n, h => by
    simpa [streamOf] using h
  | (v, k) :: rest, st, N, n, h => by
    obtain ⟨h1, h2, h3⟩ := writeBits_sync h v k
    obtain ⟨ih1, ih2, ih3⟩ := foldl_writeBits_sync rest (st.writeBits v k) _ _ h1
    have harith : N + v % 2 ^ k * 2 ^ n + (streamOf rest).1 * 2 ^ (n + k)
        = N + (streamOf ((v, k) :: rest)).1 * 2 ^ n := by
      show _ = N + (v % 2 ^ k + (streamOf rest).1 * 2 ^ k) * 2 ^ n
      rw [pow_add]
      ring
    have hwidth : n + k + (streamOf rest).2 = n + (streamOf ((v, k) :: rest)).2 := by
      show _ = n + (k + (streamOf rest).2)
      omega
    refine ⟨?_, ?_, ?_⟩
    · show Sync (rest.foldl _ (st.writeBits v k)) _ _
      rw [← harith, ← hwidth]
      exact ih1
    · show (rest.foldl _ (st.writeBits v k)).numBitsWritten = _
      rw [ih2, h2]
      show st.numBitsWritten + k + (streamOf rest).2
        = st.numBitsWritten + (k + (streamOf rest).2)
      omega
    · show (rest.foldl _ (st.writeBits v k)).finalizeOnClose = _
      rw [ih3, h3]

theorem packState_sync (fields : List (Nat × Nat)) :
    Sync (packState fields) (streamOf fields).1 (streamOf fields).2 ∧
      (packState fields).numBitsWritten = (streamOf fields).2 ∧
      (packState fields).finalizeOnClose = true := by
  obtain ⟨h1, h2, h3⟩ :=
    foldl_writeBits_sync fields (BitPacker.start true) 0 0 (sync_start true)
  refine ⟨?_, ?_, h3⟩
  · simpa [packState, BitPacker.start] using h1
  · simpa [packState, BitPacker.start] using h2

theorem encode_finalizer_eq {r : Nat} (h1 : 1 ≤ r) (h2 : r ≤ 63) :
    encode_finalizer r = (r - 1) * 2 ^ 57 := by
  unfold encode_finalizer
  rw [FINALIZER_LSH_def, PACK_WORD_BITS_def]
  have hmod : (r + (2 ^ 64 - 1)) % 2 ^ 64 = r - 1 := by omega
  rw [hmod, shl_mod_eq (show r - 1 < 2 ^ 6 from by omega) (by omega)]

theorem encode_finalizer_zero : encode_finalizer 0 = 2 ^ 64 - 2 ^ 57 := by decide

theorem destroy_out {st : BitPacker} {N n : Nat} (h : Sync st N n)
    (hfin : st.finalizeOnClose = true) : st.destroy.out = finalWords N n := by
  have h64 : PACK_WORD_BITS = 64 := rfl
  have hN := h.1
  have hi : st.i = n % 64 := h.2.1
  have hwf : st.wasEverFlushed = decide (64 ≤ n) := h.2.2.2.2
  have hout : st.out = wordsOf N n := h.2.2.2.1
  have hpack : st.pack = N / 2 ^ (64 * (n / 64)) := h.2.2.1
  simp only [BitPacker.destroy, hfin, Bool.true_and]
  by_cases hn0 : n = 0
  · subst hn0
    have hne : (st.wasEverFlushed || decide (st.i > 0)) = false := by
      rw [hwf, hi]
      decide
    rw [hne, if_neg (by simp)]
    unfold BitPacker.flush
    rw [if_neg (by rw [hi]; decide), hout]
    rfl
  · have hne : (st.wasEverFlushed || decide (st.i > 0)) = true := by
      rw [hwf, hi]
      by_cases h64n : 64 ≤ n
      · simp [h64n]
      · have : 0 < n % 64 := by omega
        simp [this]
    rw [hne, if_pos rfl]
    by_cases hbig : st.i ≥ PAYLOAD_BITS
    · -- trailing count collides with the finalizer region: pre-flush, extra word
      have hr : 58 ≤ n % 64 := by rw [hi] at hbig; simpa using hbig
      rw [if_pos hbig]
      unfold BitPacker.flush
      rw [if_pos (by omega : st.i ≠ 0)]
      rw [if_pos (by rw [PACK_WORD_BITS_def]; omega : (PACK_WORD_BITS : Nat) ≠ 0)]
      show st.out ++ [st.pack] ++ [0 ||| encode_finalizer st.i] = finalWords N n
      rw [Nat.zero_or, hout, hpack, hi]
      simp only [finalWords, PACK_WORD_BITS_def, PAYLOAD_BITS_def]
      rw [if_neg hn0, if_neg (by omega : ¬ n % 64 = 0),
        if_pos (show n % 64 ≥ 58 from hr), List.append_assoc]
      rfl
    · rw [if_neg hbig]
      unfold BitPacker.flush
      rw [if_pos (by rw [PACK_WORD_BITS_def]; omega : (PACK_WORD_BITS : Nat) ≠ 0)]
      show st.out ++ [st.pack ||| encode_finalizer st.i] = finalWords N n
      have hrlt : n % 64 < 58 := by rw [hi] at hbig; simpa using hbig
      by_cases hr0 : n % 64 = 0
      · -- stream ends exactly at a word boundary: finalizer-only extra word
        have hpz : st.pack = 0 := by
          rw [hpack, Nat.div_eq_of_lt]
          rw [show 64 * (n / 64) = n from by omega]
          exact hN
        rw [hout, hpz, hi, hr0, Nat.zero_or]
        simp only [finalWords, PACK_WORD_BITS_def, PAYLOAD_BITS_def]
        rw [if_neg hn0, if_pos hr0]
      · -- finalizer fits beside the trailing bits in the last word
        have hplt : st.pack < 2 ^ 57 := by
          have := sync_pack_lt h
          exact lt_of_lt_of_le this (Nat.pow_le_pow_right (by norm_num) (by omega))
        rw [hout, hi, encode_finalizer_eq (by omega) (by omega),
          lor_eq_add _ _ hplt, hpack]
        simp only [finalWords, PACK_WORD_BITS_def, PAYLOAD_BITS_def]
        rw [if_neg hn0, if_neg hr0, if_neg (show ¬ n % 64 ≥ 58 from by omega),
          encode_finalizer_eq (by omega) (by omega)]

/-! ## Decoding the finalizer -/

theorem decode_add {r : Nat} (p : Nat) (h1 : 1 ≤ r) (h2 : r ≤ 63) (hp : p < 2 ^ 57) :
    decode_finalizer (p + (r - 1) * 2 ^ 57) = r := by
  unfold decode_finalizer
  rw [FINALIZER_LSH_def, PACK_WORD_BITS_def, Nat.shiftRight_eq_div_pow]
  have hdiv : (p + (r - 1) * 2 ^ 57) / 2 ^ 57 = r - 1 := by
    rw [Nat.add_mul_div_right _ _ (Nat.two_pow_pos _), Nat.div_eq_of_lt hp,
      Nat.zero_add]
  rw [hdiv, show (r - 1 + 1) % 64 = r from by omega, if_pos (by omega)]

theorem decode_encode_zero : decode_finalizer (encode_finalizer 0) = 64 := by decide

/-! ## The wire shape consumed by a sized-mode unpacker -/

/-- Number of words of the stream `(N, n)` that contain payload bits. -/
def KOf (n : Nat) : Nat := (n + 63) / 64

/-- Number of valid payload bits in word `KOf n - 1`, in `[1, 64]`. -/
def availOf (n : Nat) : Nat := n - 64 * (KOf n - 1)

/-- Shape of a finalized word sequence carrying the bit stream `(N, n)`:
either the last payload word itself carries the finalizer (decoding to
fewer than `PAYLOAD_BITS` valid bits), or one finalizer-only extra word
follows all payload words (decoding to at least `PAYLOAD_BITS` bits); and
the low valid bits of every payload word are the stream's bits. -/
def GoodWire (ws : List Nat) (N n : Nat) : Prop :=
  0 < n ∧ N < 2 ^ n ∧
  ((ws.length = KOf n ∧ decode_finalizer (ws.getD (KOf n - 1) 0) = availOf n ∧
      availOf n < 58) ∨
    (ws.length = KOf n + 1 ∧ decode_finalizer (ws.getD (KOf n) 0) = availOf n ∧
      58 ≤ availOf n)) ∧
  ∀ j, j < KOf n →
    ws.getD j 0 % 2 ^ min 64 (n - 64 * j) = N / 2 ^ (64 * j) % 2 ^ min 64 (n - 64 * j)

theorem getD_append_left {l l' : List Nat} {j : Nat} (h : j < l.length) :
    (l ++ l').getD j 0 = l.getD j 0 := by
  rw [List.getD_eq_getElem?_getD, List.getD_eq_getElem?_getD,
    List.getElem?_append_left h]

theorem getD_concat_length {l : List Nat} {x : Nat} {j : Nat} (h : j = l.length) :
    (l ++ [x]).getD j 0 = x := by
  subst h
  rw [List.getD_eq_getElem?_getD, List.getElem?_concat_length]
  rfl

theorem wordsOf_length (N n : Nat) : (wordsOf N n).length = n / 64 := by
  simp [wordsOf]

theorem wordsOf_getD {N n j : Nat} (h : j < n / 64) :
    (wordsOf N n).getD j 0 = N / 2 ^ (64 * j) % 2 ^ 64 := by
  rw [wordsOf, PACK_WORD_BITS_def, List.getD_eq_getElem?_getD, List.getElem?_map,
    List.getElem?_range h]
  rfl

theorem mod_pow_absorb {a b r s : Nat} (h : r ≤ s) :
    (a + b * 2 ^ s) % 2 ^ r = a % 2 ^ r := by
  rw [show b * 2 ^ s = b * 2 ^ (s - r) * 2 ^ r from by
      rw [mul_assoc, ← pow_add, Nat.sub_add_cancel h],
    Nat.add_mul_mod_self_right]

theorem goodWire_finalWords {N n : Nat} (hn : 0 < n) (hN : N < 2 ^ n) :
    GoodWire (finalWords N n) N n := by
  have h64 : PACK_WORD_BITS = 64 := rfl
  have hK : KOf n = (n + 63) / 64 := rfl
  have hav : availOf n = n - 64 * (KOf n - 1) := rfl
  have hqlt : N / 2 ^ (64 * (n / 64)) < 2 ^ (n % 64) := by
    apply div_pow_lt
    rw [Nat.div_add_mod]
    exact hN
  refine ⟨hn, hN, ?_, ?_⟩
  · -- the length/finalizer disjunct
    by_cases hr0 : n % 64 = 0
    · right
      simp only [finalWords, PACK_WORD_BITS_def, PAYLOAD_BITS_def, if_neg (by omega : ¬ n = 0),
        if_pos hr0]
      refine ⟨?_, ?_, ?_⟩
      · rw [List.length_append, wordsOf_length]
        simp
        omega
      · rw [getD_concat_length (by rw [wordsOf_length]; omega), decode_encode_zero]
        omega
      · omega
    · by_cases hrbig : n % 64 ≥ 58
      · right
        simp only [finalWords, PACK_WORD_BITS_def, PAYLOAD_BITS_def,
          if_neg (by omega : ¬ n = 0), if_neg hr0, if_pos hrbig]
        refine ⟨?_, ?_, ?_⟩
        · rw [List.length_append, wordsOf_length]
          simp
          omega
        · rw [show wordsOf N n ++ [N / 2 ^ (64 * (n / 64)), encode_finalizer (n % 64)]
              = (wordsOf N n ++ [N / 2 ^ (64 * (n / 64))]) ++ [encode_finalizer (n % 64)]
            from by simp,
            getD_concat_length (by rw [List.length_append, wordsOf_length]; simp; omega),
            encode_finalizer_eq (by omega) (by omega)]
          rw [show (n % 64 - 1) * 2 ^ 57 = 0 + (n % 64 - 1) * 2 ^ 57 from by omega,
            decode_add 0 (by omega) (by omega) (Nat.two_pow_pos 57)]
          omega
        · omega
      · left
        simp only [finalWords, PACK_WORD_BITS_def, PAYLOAD_BITS_def,
          if_neg (by omega : ¬ n = 0), if_neg hr0, if_neg hrbig]
        refine ⟨?_, ?_, ?_⟩
        · rw [List.length_append, wordsOf_length]
          simp
          omega
        · rw [getD_concat_length (by rw [wordsOf_length]; omega),
            encode_finalizer_eq (by omega) (by omega),
            decode_add _ (by omega) (by omega)
              (lt_of_lt_of_le hqlt (Nat.pow_le_pow_right (by norm_num) (by omega)))]
          omega
        · omega
  · -- the payload words
    intro j hj
    have hjK : j < (n + 63) / 64 := hj
    by_cases hjq : j < n / 64
    · have hmin : min 64 (n - 64 * j) = 64 := by omega
      have hws : (finalWords N n).getD j 0 = N / 2 ^ (64 * j) % 2 ^ 64 := by
        simp only [finalWords, PACK_WORD_BITS_def, PAYLOAD_BITS_def,
          if_neg (by omega : ¬ n = 0)]
        by_cases hr0 : n % 64 = 0
        · rw [if_pos hr0, getD_append_left (by rw [wordsOf_length]; omega), wordsOf_getD hjq]
        · by_cases hrbig : n % 64 ≥ 58
          · rw [if_neg hr0, if_pos hrbig,
              getD_append_left (by rw [wordsOf_length]; omega), wordsOf_getD hjq]
          · rw [if_neg hr0, if_neg hrbig,
              getD_append_left (by rw [wordsOf_length]; omega), wordsOf_getD hjq]
      rw [hws, hmin]
      simp [Nat.mod_mod_of_dvd]
    · -- j = n / 64, the trailing partial word (only when n % 64 ≠ 0)
      have hjq' : j = n / 64 := by omega
      have hr0 : n % 64 ≠ 0 := by omega
      have hmin : min 64 (n - 64 * j) = n % 64 := by omega
      subst hjq'
      by_cases hrbig : n % 64 ≥ 58
      · have hws : (finalWords N n).getD (n / 64) 0 = N / 2 ^ (64 * (n / 64)) := by
          simp only [finalWords, PACK_WORD_BITS_def, PAYLOAD_BITS_def,
            if_neg (by omega : ¬ n = 0), if_neg hr0, if_pos hrbig]
          rw [show wordsOf N n ++ [N / 2 ^ (64 * (n / 64)), encode_finalizer (n % 64)]
              = (wordsOf N n ++ [N / 2 ^ (64 * (n / 64))]) ++ [encode_finalizer (n % 64)]
            from by simp,
            getD_append_left (by rw [List.length_append, wordsOf_length]; simp),
            getD_concat_length (by rw [wordsOf_length])]
        rw [hws, hmin, Nat.mod_eq_of_lt hqlt]
      · have hws : (finalWords N n).getD (n / 64) 0
            = N / 2 ^ (64 * (n / 64)) + (n % 64 - 1) * 2 ^ 57 := by
          simp only [finalWords, PACK_WORD_BITS_def, PAYLOAD_BITS_def,
            if_neg (by omega : ¬ n = 0), if_neg hr0, if_neg hrbig]
          rw [getD_concat_length (by rw [wordsOf_length]),
            encode_finalizer_eq (by omega) (by omega)]
        rw [hws, hmin, mod_pow_absorb (by omega), Nat.mod_eq_of_lt hqlt]

/-! ## Unpacker advance states -/

theorem getD_eq_getElem' {l : List Nat} {j : Nat} (h : j < l.length) :
    l.getD j 0 = l[j] := by
  rw [List.getD_eq_getElem?_getD, List.getElem?_eq_getElem h]
  rfl

theorem drop_shape {l : List Nat} {j : Nat} (h : j < l.length) :
    l.drop j = l.getD j 0 :: l.drop (j + 1) := by
  rw [List.drop_eq_getElem_cons h, getD_eq_getElem' h]

theorem goodWire_K_pos {ws : List Nat} {N n : Nat} (h : GoodWire ws N n) :
    1 ≤ KOf n := by
  have hn := h.1
  have hK : KOf n = (n + 63) / 64 := rfl
  omega

theorem goodWire_len {ws : List Nat} {N n : Nat} (h : GoodWire ws N n) :
    ws.length = KOf n ∨ ws.length = KOf n + 1 := by
  rcases h.2.2.1 with ⟨h1, _, _⟩ | ⟨h1, _, _⟩
  · exact Or.inl h1
  · exact Or.inr h1

/-- One `advance` on a non-final state whose source is already drained:
decode the just-promoted word's finalizer. -/
theorem advance_drain (p nx i fa : Nat) :
    BitUnpacker.advance ⟨p, nx, i, [], false, fa⟩
      = ⟨nx, nx, 0, [], true, decode_finalizer nx⟩ := rfl

/-- One `advance` that fetches the last remaining word: the tie-break peeks
at its finalizer. -/
theorem advance_fetch_last (p nx i fa w : Nat) :
    BitUnpacker.advance ⟨p, nx, i, [w], false, fa⟩
      = if decode_finalizer w ≥ PAYLOAD_BITS
        then ⟨nx, w, 0, [], true, decode_finalizer w⟩
        else ⟨nx, w, 0, [], false, fa⟩ := rfl

/-- One `advance` with at least two words remaining: a plain fetch. -/
theorem advance_fetch (p nx i fa w w2 : Nat) (rest : List Nat) :
    BitUnpacker.advance ⟨p, nx, i, w :: w2 :: rest, false, fa⟩
      = ⟨nx, w, 0, w2 :: rest, false, fa⟩ := rfl

/-- One `advance` on an already-final state just promotes the lookahead. -/
theorem advance_final (p nx i fa : Nat) (input : List Nat) :
    BitUnpacker.advance ⟨p, nx, i, input, true, fa⟩
      = ⟨nx, nx, 0, input, true, fa⟩ := rfl

theorem advIter_spec {ws : List Nat} {N n : Nat} (h : GoodWire ws N n) :
    ∀ k, 1 ≤ k → k ≤ KOf n →
    advIter ws k = { pack := ws.getD (k - 1) 0,
                     next := ws.getD (min k (ws.length - 1)) 0,
                     i := 0,
                     input := ws.drop (k + 1),
                     final := decide (k = KOf n),
                     finalAvail := if k = KOf n then availOf n else 0 } := by
  have hK : KOf n = (n + 63) / 64 := rfl
  have hKpos := goodWire_K_pos h
  have hlen := goodWire_len h
  intro k
  induction k with
  | zero => intro h1 _; omega
  | succ k ih =>
    intro _ hk1K
    by_cases hk0 : k = 0
    · -- first advance, starting from the constructor state
      subst hk0
      have hlen1 : 0 < ws.length := by omega
      obtain ⟨w, rest, hws⟩ : ∃ w rest, ws = w :: rest := by
        cases hwsE : ws with
        | nil => rw [hwsE] at hlen1; simp at hlen1
        | cons a l => exact ⟨a, l, rfl⟩
      have hstart : BitUnpacker.start ws = ⟨0, w, 64, rest, false, 0⟩ := by
        rw [hws]; rfl
      show (BitUnpacker.start ws).advance = _
      rw [hstart]
      cases hrestE : rest with
      | nil =>
        -- the input held a single word: the first advance drains it
        subst hrestE
        have hlenws : ws.length = 1 := by rw [hws]; rfl
        have hKA : KOf n = 1 ∧ decode_finalizer (ws.getD (KOf n - 1) 0) = availOf n := by
          rcases h.2.2.1 with ⟨h1, h2, _⟩ | ⟨h1, _, _⟩
          · exact ⟨by omega, h2⟩
          · omega
        rw [advance_drain, BitUnpacker.mk.injEq]
        refine ⟨by rw [hws]; rfl, ?_, rfl, by rw [hws]; rfl, ?_, ?_⟩
        · rw [hws]; rfl
        · rw [decide_eq_true (by omega : (1:Nat) = KOf n)]
        · rw [if_pos (by omega : (1:Nat) = KOf n), ← hKA.2,
            show KOf n - 1 = 0 from by omega, hws]
          rfl
      | cons w2 rest2 =>
        subst hrestE
        have hw2 : w2 = ws.getD 1 0 := by rw [hws]; rfl
        cases hrest2E : rest2 with
        | nil =>
          -- fetching the second word drains the input: the tie-break peeks
          subst hrest2E
          have hlen2 : ws.length = 2 := by rw [hws]; rfl
          rw [advance_fetch_last]
          by_cases hcaseB : ws.length = KOf n + 1
          · -- extra finalizer-only word: the tie-break fires
            have hKB : KOf n = 1 := by omega
            have hdec : decode_finalizer (ws.getD (KOf n) 0) = availOf n ∧
                58 ≤ availOf n := by
              rcases h.2.2.1 with ⟨h1, _, _⟩ | ⟨_, h2, h3⟩
              · omega
              · exact ⟨h2, h3⟩
            have hdecw2 : decode_finalizer w2 = availOf n := by
              rw [hw2, show (1:Nat) = KOf n from by omega]
              exact hdec.1
            rw [if_pos (by rw [hdecw2, PAYLOAD_BITS_def]; omega), BitUnpacker.mk.injEq]
            refine ⟨by rw [hws]; rfl, ?_, rfl, by rw [hws]; rfl, ?_, ?_⟩
            · rw [hw2, show min (0 + 1) (ws.length - 1) = 1 from by omega]
            · rw [decide_eq_true (by omega : (1:Nat) = KOf n)]
            · rw [if_pos (by omega : (1:Nat) = KOf n), hdecw2]
          · -- the second word is the last payload word: no tie-break
            have hKA : KOf n = 2 := by omega
            have hdecw2 : decode_finalizer w2 < 58 := by
              rcases h.2.2.1 with ⟨_, h2, h3⟩ | ⟨h1, _, _⟩
              · rw [hw2, show (1:Nat) = KOf n - 1 from by omega]
                omega
              · omega
            rw [if_neg (by rw [PAYLOAD_BITS_def]; omega), BitUnpacker.mk.injEq]
            refine ⟨by rw [hws]; rfl, ?_, rfl, by rw [hws]; rfl, ?_, ?_⟩
            · rw [hw2, show min (0 + 1) (ws.length - 1) = 1 from by omega]
            · rw [decide_eq_false (by omega : ¬ (1:Nat) = KOf n)]
            · rw [if_neg (by omega : ¬ (1:Nat) = KOf n)]
        | cons w3 rest3 =>
          -- at least two more words: a plain fetch
          subst hrest2E
          have hlen3 : 3 ≤ ws.length := by rw [hws]; simp
          have hne : ¬ (1:Nat) = KOf n := by omega
          rw [advance_fetch, BitUnpacker.mk.injEq]
          refine ⟨by rw [hws]; rfl, ?_, rfl, by rw [hws]; rfl, ?_, ?_⟩
          · rw [hw2, show min (0 + 1) (ws.length - 1) = 1 from by omega]
          · rw [decide_eq_false hne]
          · rw [if_neg hne]
    · -- subsequent advance from the characterized state at k
      have hIH := ih (by omega) (by omega)
      have hkKlt : k < KOf n := by omega
      have hminK : min k (ws.length - 1) = k := by omega
      show (advIter ws k).advance = _
      rw [hIH, hminK, decide_eq_false (show ¬ k = KOf n from by omega),
        if_neg (show ¬ k = KOf n from by omega)]
      by_cases hdrain : ws.length ≤ k + 1
      · -- promoting the last word with no lookahead left
        have hlenA : ws.length = KOf n ∧ k + 1 = KOf n := by omega
        have hdec : decode_finalizer (ws.getD (KOf n - 1) 0) = availOf n := by
          rcases h.2.2.1 with ⟨_, h2, _⟩ | ⟨h1, _, _⟩
          · exact h2
          · omega
        rw [List.drop_eq_nil_of_le hdrain, advance_drain, BitUnpacker.mk.injEq]
        refine ⟨rfl, by rw [show min (k + 1) (ws.length - 1) = k from by omega], rfl,
          by rw [List.drop_eq_nil_of_le (by omega)], ?_, ?_⟩
        · rw [decide_eq_true (by omega : k + 1 = KOf n)]
        · rw [if_pos (by omega : k + 1 = KOf n), ← hdec,
            show KOf n - 1 = k from by omega]
      · -- fetch the next lookahead word
        have hlt : k + 1 < ws.length := by omega
        rw [drop_shape hlt]
        by_cases hdrain2 : ws.length ≤ k + 2
        · rw [List.drop_eq_nil_of_le hdrain2, advance_fetch_last]
          by_cases hcaseB : ws.length = KOf n + 1
          · -- the fetched word is the finalizer-only extra word
            have hk1K : k + 1 = KOf n := by omega
            have hdec : decode_finalizer (ws.getD (KOf n) 0) = availOf n ∧
                58 ≤ availOf n := by
              rcases h.2.2.1 with ⟨h1, _, _⟩ | ⟨_, h2, h3⟩
              · omega
              · exact ⟨h2, h3⟩
            have hdecf : decode_finalizer (ws.getD (k + 1) 0) = availOf n := by
              rw [hk1K]; exact hdec.1
            rw [if_pos (by rw [hdecf, PAYLOAD_BITS_def]; omega), BitUnpacker.mk.injEq]
            refine ⟨rfl, by rw [show min (k + 1) (ws.length - 1) = k + 1 from by omega], rfl,
              rfl, ?_, ?_⟩
            · rw [decide_eq_true hk1K]
            · rw [if_pos hk1K, hdecf]
          · -- the fetched word is the last payload word: no tie-break
            have hlenA : ws.length = KOf n ∧ k + 2 = KOf n := by omega
            have hdecf : decode_finalizer (ws.getD (k + 1) 0) < 58 := by
              rcases h.2.2.1 with ⟨_, h2, h3⟩ | ⟨h1, _, _⟩
              · rw [show k + 1 = KOf n - 1 from by omega]
                omega
              · omega
            rw [if_neg (by rw [PAYLOAD_BITS_def]; omega), BitUnpacker.mk.injEq]
            refine ⟨rfl, by rw [show min (k + 1) (ws.length - 1) = k + 1 from by omega], rfl,
              rfl, ?_, ?_⟩
            · rw [decide_eq_false (by omega : ¬ k + 1 = KOf n)]
            · rw [if_neg (by omega : ¬ k + 1 = KOf n)]
        · -- at least two words remain
          rw [drop_shape (show k + 2 < ws.length from by omega), advance_fetch,
            BitUnpacker.mk.injEq]
          refine ⟨rfl, by rw [show min (k + 1) (ws.length - 1) = k + 1 from by omega], rfl,
            by rw [← drop_shape (show k + 2 < ws.length from by omega)], ?_, ?_⟩
          · rw [decide_eq_false (by omega : ¬ k + 1 = KOf n)]
          · rw [if_neg (by omega : ¬ k + 1 = KOf n)]

/-! ## Reading bits -/

theorem readLoop_stop {fuel : Nat} {st : BitUnpacker} {bits j num : Nat}
    (hg : ¬ (st.i + num > PACK_WORD_BITS)) :
    BitUnpacker.readLoop fuel st bits j num = (st, bits, j, num) := by
  cases fuel with
  | zero => rfl
  | succ fuel => rw [BitUnpacker.readLoop, if_neg hg]

/-- `advance` never reads the bit position. -/
theorem advance_i_update (st : BitUnpacker) (x : Nat) :
    BitUnpacker.advance { st with i := x } = st.advance := rfl

/-- Extracting an in-range bit group from a stored word yields the stream's
bits: consequence of the payload clause of `GoodWire`. -/
theorem word_read {ws : List Nat} {N n : Nat} (h : GoodWire ws N n) {j i c : Nat}
    (htot : 64 * j + i + c ≤ n) (hic : i + c ≤ 64) :
    ws.getD j 0 / 2 ^ i % 2 ^ c = N / 2 ^ (64 * j + i) % 2 ^ c := by
  by_cases hc0 : c = 0
  · subst hc0
    simp [Nat.mod_one]
  · have hK : KOf n = (n + 63) / 64 := rfl
    have hjK : j < KOf n := by omega
    have hS4 := h.2.2.2 j hjK
    have hm : i + c ≤ min 64 (n - 64 * j) := by omega
    have key : ∀ a b : Nat, a % 2 ^ min 64 (n - 64 * j) = b % 2 ^ min 64 (n - 64 * j) →
        a / 2 ^ i % 2 ^ c = b / 2 ^ i % 2 ^ c := by
      intro a b hab
      have hdvd : (2 : Nat) ^ (i + c) ∣ 2 ^ min 64 (n - 64 * j) :=
        pow_dvd_pow 2 hm
      have h1 : a % 2 ^ (i + c) = b % 2 ^ (i + c) := by
        rw [← Nat.mod_mod_of_dvd a hdvd, ← Nat.mod_mod_of_dvd b hdvd, hab]
      have h2 : ∀ x : Nat, x / 2 ^ i % 2 ^ c = x % 2 ^ (i + c) / 2 ^ i := by
        intro x
        rw [pow_add, Nat.mod_mul_right_div_self]
      rw [h2, h2, h1]
    have := key _ _ hS4
    rw [this, Nat.div_div_eq_div_mul, ← pow_add]

theorem stateAt_norm {ws : List Nat} {N n : Nat} (h : GoodWire ws N n) {p : Nat}
    (hp : p < n) :
    (if (stateAt ws p).i ≥ PACK_WORD_BITS then (stateAt ws p).advance else stateAt ws p)
      = { pack := ws.getD (p / 64) 0,
          next := ws.getD (min (p / 64 + 1) (ws.length - 1)) 0,
          i := p % 64,
          input := ws.drop (p / 64 + 2),
          final := decide (p / 64 + 1 = KOf n),
          finalAvail := if p / 64 + 1 = KOf n then availOf n else 0 } := by
  have hK : KOf n = (n + 63) / 64 := rfl
  have h64 : PACK_WORD_BITS = 64 := rfl
  have hKpos := goodWire_K_pos h
  have hk1K : p / 64 + 1 ≤ KOf n := by omega
  by_cases hp0 : p = 0
  · subst hp0
    have hstep : BitUnpacker.advance (BitUnpacker.start ws) = advIter ws 1 := rfl
    have hstAt : stateAt ws 0 = BitUnpacker.start ws := by simp [stateAt]
    have hsi : (BitUnpacker.start ws).i = PACK_WORD_BITS := by
      cases ws <;> rfl
    rw [hstAt, if_pos (show (BitUnpacker.start ws).i ≥ PACK_WORD_BITS from by rw [hsi]),
      hstep, advIter_spec h 1 le_rfl (by omega)]
  · simp only [stateAt, if_neg hp0]
    by_cases hdvd : p % 64 = 0
    · have hk1 : (p + 63) / 64 = p / 64 := by omega
      have hi64 : p - 64 * ((p + 63) / 64 - 1) = 64 := by omega
      rw [hi64, if_pos (by omega), hk1, advance_i_update]
      have hstep : BitUnpacker.advance (advIter ws (p / 64)) = advIter ws (p / 64 + 1) := rfl
      rw [hstep, advIter_spec h (p / 64 + 1) (by omega) hk1K, Nat.add_sub_cancel, hdvd]
    · have hk1 : (p + 63) / 64 = p / 64 + 1 := by omega
      rw [hk1, show p - 64 * (p / 64 + 1 - 1) = p % 64 from by omega,
        if_neg (by omega), advIter_spec h (p / 64 + 1) (by omega) hk1K,
        Nat.add_sub_cancel]

/-- One guarded iteration of the read loop, on an explicit state. -/
theorem readLoop_step (fuel pk nx iv fa bits j num : Nat) (input : List Nat)
    (final : Bool) (hg : iv + num > PACK_WORD_BITS) :
    BitUnpacker.readLoop (fuel + 1) ⟨pk, nx, iv, input, final, fa⟩ bits j num
      = BitUnpacker.readLoop fuel (BitUnpacker.advance ⟨pk, nx, iv, input, final, fa⟩)
          (bits ||| (extract_low (pk >>> iv) (PACK_WORD_BITS - iv) <<< j) % 2 ^ PACK_WORD_BITS)
          (j + (PACK_WORD_BITS - iv)) (num - (PACK_WORD_BITS - iv)) := by
  rw [BitUnpacker.readLoop, if_pos hg]

theorem readBits_core {ws : List Nat} {N n : Nat} (h : GoodWire ws N n) {p num : Nat}
    (h1 : 1 ≤ num) (hn64 : num ≤ 64) (hpn : p + num ≤ n) :
    BitUnpacker.readBits (stateAt ws p) num
      = (N / 2 ^ p % 2 ^ num, stateAt ws (p + num)) := by
  have hK : KOf n = (n + 63) / 64 := rfl
  have h64 : PACK_WORD_BITS = 64 := rfl
  have hKpos := goodWire_K_pos h
  have hnorm := stateAt_norm h (show p < n from by omega)
  simp only [BitUnpacker.readBits]
  rw [hnorm]
  by_cases hspan : p % 64 + num ≤ 64
  · -- the whole group lies in the current word
    rw [readLoop_stop (show ¬ (p % 64 + num > PACK_WORD_BITS) from by omega)]
    rw [if_pos (show num ≠ 0 from by omega)]
    have hbits : (0 : Nat) ||| (extract_low (ws.getD (p / 64) 0 >>> (p % 64)) num <<< 0)
          % 2 ^ PACK_WORD_BITS
        = N / 2 ^ p % 2 ^ num := by
      rw [Nat.zero_or, Nat.shiftLeft_zero, extract_low_eq_mod _ h1 hn64,
        Nat.shiftRight_eq_div_pow, PACK_WORD_BITS_def,
        Nat.mod_eq_of_lt (lt_of_lt_of_le (Nat.mod_lt _ (Nat.two_pow_pos num))
          (Nat.pow_le_pow_right (by norm_num) hn64)),
        word_read h (show 64 * (p / 64) + p % 64 + num ≤ n from by omega) (by omega),
        show 64 * (p / 64) + p % 64 = p from by omega]
    have hend : stateAt ws (p + num)
        = { pack := ws.getD (p / 64) 0,
            next := ws.getD (min (p / 64 + 1) (ws.length - 1)) 0,
            i := p % 64 + num,
            input := ws.drop (p / 64 + 2),
            final := decide (p / 64 + 1 = KOf n),
            finalAvail := if p / 64 + 1 = KOf n then availOf n else 0 } := by
      simp only [stateAt, if_neg (show ¬ p + num = 0 from by omega)]
      rw [show (p + num + 63) / 64 = p / 64 + 1 from by omega,
        advIter_spec h (p / 64 + 1) (by omega) (by omega), Nat.add_sub_cancel]
      rw [BitUnpacker.mk.injEq]
      refine ⟨rfl, rfl, by omega, rfl, rfl, rfl⟩
    rw [Prod.mk.injEq]
    exact ⟨hbits, by rw [hend]⟩
  · -- the group spans two words
    obtain ⟨m, rfl⟩ : ∃ m, num = m + 1 := ⟨num - 1, by omega⟩
    rw [readLoop_step _ _ _ _ _ _ _ _ _ _
      (show p % 64 + (m + 1) > PACK_WORD_BITS from by omega)]
    have hRe : (⟨ws.getD (p / 64) 0, ws.getD (min (p / 64 + 1) (ws.length - 1)) 0,
        p % 64, ws.drop (p / 64 + 2), decide (p / 64 + 1 = KOf n),
        if p / 64 + 1 = KOf n then availOf n else 0⟩ : BitUnpacker)
        = { advIter ws (p / 64 + 1) with i := p % 64 } := by
      rw [advIter_spec h (p / 64 + 1) (by omega) (by omega), Nat.add_sub_cancel]
    have hstep : (advIter ws (p / 64 + 1)).advance = advIter ws (p / 64 + 2) := rfl
    have hk2K : p / 64 + 2 ≤ KOf n := by omega
    rw [hRe, advance_i_update, hstep, advIter_spec h (p / 64 + 2) (by omega) hk2K]
    rw [readLoop_stop (show ¬ ((0:Nat) + (m + 1 - (PACK_WORD_BITS - p % 64))
        > PACK_WORD_BITS) from by omega)]
    rw [if_pos (show m + 1 - (PACK_WORD_BITS - p % 64) ≠ 0 from by omega)]
    have hA1 : 1 ≤ 64 - p % 64 := by omega
    have hchunk1 : (0 : Nat) ||| (extract_low (ws.getD (p / 64) 0 >>> (p % 64))
          (PACK_WORD_BITS - p % 64) <<< 0) % 2 ^ PACK_WORD_BITS
        = N / 2 ^ p % 2 ^ (64 - p % 64) := by
      rw [Nat.zero_or, Nat.shiftLeft_zero, PACK_WORD_BITS_def,
        extract_low_eq_mod _ (by omega) (by omega),
        Nat.shiftRight_eq_div_pow,
        Nat.mod_eq_of_lt (lt_of_lt_of_le (Nat.mod_lt _ (Nat.two_pow_pos _))
          (Nat.pow_le_pow_right (by norm_num) (by omega))),
        word_read h (show 64 * (p / 64) + p % 64 + (64 - p % 64) ≤ n from by omega)
          (by omega),
        show 64 * (p / 64) + p % 64 = p from by omega]
    rw [hchunk1]
    have hchunk2 : extract_low (ws.getD (p / 64 + 2 - 1) 0 >>> 0)
          (m + 1 - (PACK_WORD_BITS - p % 64))
        = N / 2 ^ p / 2 ^ (64 - p % 64) % 2 ^ (m + 1 - (64 - p % 64)) := by
      rw [Nat.shiftRight_zero, PACK_WORD_BITS_def,
        extract_low_eq_mod _ (by omega) (by omega)]
      have hwr := word_read h
        (show 64 * (p / 64 + 1) + 0 + (m + 1 - (64 - p % 64)) ≤ n from by omega)
        (show 0 + (m + 1 - (64 - p % 64)) ≤ 64 from by omega)
      rw [pow_zero, Nat.div_one, Nat.add_zero] at hwr
      rw [show p / 64 + 2 - 1 = p / 64 + 1 from by omega, hwr,
        Nat.div_div_eq_div_mul, ← pow_add,
        show p + (64 - p % 64) = 64 * (p / 64 + 1) from by omega]
      norm_num
    have hbits : N / 2 ^ p % 2 ^ (64 - p % 64)
          ||| ((N / 2 ^ p / 2 ^ (64 - p % 64) % 2 ^ (m + 1 - (64 - p % 64)))
            <<< (0 + (PACK_WORD_BITS - p % 64))) % 2 ^ PACK_WORD_BITS
        = N / 2 ^ p % 2 ^ (m + 1) := by
      rw [Nat.zero_add, PACK_WORD_BITS_def,
        shl_mod_eq (Nat.mod_lt _ (Nat.two_pow_pos _)) (by omega),
        lor_eq_add _ _ (Nat.mod_lt _ (Nat.two_pow_pos _)),
        ← mod_pow_split (N / 2 ^ p) (64 - p % 64) (m + 1 - (64 - p % 64)),
        show 64 - p % 64 + (m + 1 - (64 - p % 64)) = m + 1 from by omega]
    have hend : stateAt ws (p + (m + 1))
        = { pack := ws.getD (p / 64 + 2 - 1) 0,
            next := ws.getD (min (p / 64 + 2) (ws.length - 1)) 0,
            i := 0 + (m + 1 - (PACK_WORD_BITS - p % 64)),
            input := ws.drop (p / 64 + 2 + 1),
            final := decide (p / 64 + 2 = KOf n),
            finalAvail := if p / 64 + 2 = KOf n then availOf n else 0 } := by
      simp only [stateAt, if_neg (show ¬ p + (m + 1) = 0 from by omega)]
      rw [show (p + (m + 1) + 63) / 64 = p / 64 + 2 from by omega,
        advIter_spec h (p / 64 + 2) (by omega) hk2K]
      rw [BitUnpacker.mk.injEq]
      refine ⟨rfl, rfl, by omega, rfl, rfl, rfl⟩
    rw [Prod.mk.injEq]
    refine ⟨?_, by rw [hend]⟩
    rw [hchunk2, hbits]

theorem stateAt_good_eof {ws : List Nat} {N n : Nat} (h : GoodWire ws N n) {p : Nat}
    (hp : p ≤ n) :
    (stateAt ws p).good = decide (p < n) ∧ (stateAt ws p).eof = decide (p = n) := by
  have hK : KOf n = (n + 63) / 64 := rfl
  have hav : availOf n = n - 64 * (KOf n - 1) := rfl
  have hKpos := goodWire_K_pos h
  have hn := h.1
  by_cases hp0 : p = 0
  · subst hp0
    obtain ⟨w, rest, hws⟩ : ∃ w rest, ws = w :: rest := by
      have hlen1 : 0 < ws.length := by rcases goodWire_len h with h1 | h1 <;> omega
      cases hwsE : ws with
      | nil => rw [hwsE] at hlen1; simp at hlen1
      | cons a l => exact ⟨a, l, rfl⟩
    have hstAt : stateAt ws 0 = BitUnpacker.start ws := by simp [stateAt]
    rw [hstAt, hws]
    constructor
    · simp [BitUnpacker.start, BitUnpacker.good, hn]
    · simp [BitUnpacker.eof, BitUnpacker.start]
      omega
  · simp only [stateAt, if_neg hp0]
    rw [advIter_spec h ((p + 63) / 64) (by omega) (by omega)]
    by_cases hkK : (p + 63) / 64 = KOf n
    · constructor
      · simp only [BitUnpacker.good, decide_eq_true hkK, if_pos hkK, Bool.not_true,
          Bool.false_or]
        exact decide_eq_decide.mpr (by omega)
      · simp only [BitUnpacker.eof, decide_eq_true hkK, if_pos hkK, Bool.true_and]
        exact decide_eq_decide.mpr (by omega)
    · have hplt : p < n := by omega
      constructor
      · simp only [BitUnpacker.good, decide_eq_false hkK, Bool.not_false, Bool.true_or]
        rw [decide_eq_true hplt]
      · simp only [BitUnpacker.eof, decide_eq_false hkK, Bool.false_and]
        rw [decide_eq_false (by omega : ¬ p = n)]

/-! ## Assembling field sequences -/

theorem streamOf_append_len : ∀ f1 f2 : List (Nat × Nat),
    (streamOf (f1 ++ f2)).2 = (streamOf f1).2 + (streamOf f2).2
  | [], f2 => by simp [streamOf]
  | vk :: f1, f2 => by
    show vk.2 + (streamOf (f1 ++ f2)).2 = vk.2 + (streamOf f1).2 + (streamOf f2).2
    rw [streamOf_append_len f1 f2]
    omega

theorem streamOf_split : ∀ (f1 : List (Nat × Nat)) (v k : Nat) (f2 : List (Nat × Nat)),
    (streamOf (f1 ++ (v, k) :: f2)).1 / 2 ^ (streamOf f1).2 % 2 ^ k = v % 2 ^ k
  | [], v, k, f2 => by
    show (v % 2 ^ k + (streamOf f2).1 * 2 ^ k) / 2 ^ 0 % 2 ^ k = v % 2 ^ k
    rw [pow_zero, Nat.div_one, Nat.add_mul_mod_self_right, Nat.mod_mod]
  | (w, j) :: f1, v, k, f2 => by
    show (w % 2 ^ j + (streamOf (f1 ++ (v, k) :: f2)).1 * 2 ^ j)
        / 2 ^ (j + (streamOf f1).2) % 2 ^ k = v % 2 ^ k
    rw [pow_add, ← Nat.div_div_eq_div_mul,
      Nat.add_mul_div_right _ _ (Nat.two_pow_pos j),
      Nat.div_eq_of_lt (Nat.mod_lt _ (Nat.two_pow_pos j)), Nat.zero_add]
    exact streamOf_split f1 v k f2

/-- The value groups of the stream `N` at the widths of `fields`, starting
at bit position `p`. -/
def sliceFields (N : Nat) : Nat → List (Nat × Nat) → List Nat
  | _, [] => []
  | p, vk :: rest => N / 2 ^ p % 2 ^ vk.2 :: sliceFields N (p + vk.2) rest

theorem readFields_spec {ws : List Nat} {N n : Nat} (h : GoodWire ws N n) :
    ∀ (f2 : List (Nat × Nat)) (p : Nat), p + (streamOf f2).2 ≤ n →
    (∀ vk ∈ f2, 1 ≤ vk.2 ∧ vk.2 ≤ 64) →
    readFields (stateAt ws p) f2 = (sliceFields N p f2, stateAt ws (p + (streamOf f2).2))
  | [], p, hle, hv => by simp [readFields, sliceFields, streamOf]
  | (v, k) :: f2, p, hle, hv => by
    have hk := hv (v, k) (by simp)
    have hw : (streamOf ((v, k) :: f2)).2 = k + (streamOf f2).2 := rfl
    have hlen : p + k + (streamOf f2).2 ≤ n := by omega
    have hrb := readBits_core h hk.1 hk.2 (show p + k ≤ n from by omega)
    simp only [readFields]
    rw [hrb]
    rw [readFields_spec h f2 (p + k) hlen
      (fun vk hvk => hv vk (List.mem_cons_of_mem _ hvk))]
    rw [Prod.mk.injEq]
    refine ⟨rfl, ?_⟩
    rw [hw, Nat.add_assoc]

theorem sliceFields_eq : ∀ (f2 f1 : List (Nat × Nat)),
    sliceFields (streamOf (f1 ++ f2)).1 (streamOf f1).2 f2
      = f2.map (fun vk => vk.1 % 2 ^ vk.2)
  | [], f1 => rfl
  | (v, k) :: f2, f1 => by
    have h2 : (streamOf (f1 ++ [(v, k)])).2 = (streamOf f1).2 + k := by
      rw [streamOf_append_len]
      rfl
    have hass : f1 ++ (v, k) :: f2 = (f1 ++ [(v, k)]) ++ f2 := by simp
    simp only [sliceFields, List.map_cons]
    rw [streamOf_split f1 v k f2]
    rw [show (streamOf f1).2 + (v, k).2 = (streamOf (f1 ++ [(v, k)])).2 from by rw [h2]]
    rw [show streamOf (f1 ++ (v, k) :: f2) = streamOf ((f1 ++ [(v, k)]) ++ f2) from by
      rw [hass]]
    rw [sliceFields_eq f2 (f1 ++ [(v, k)])]

theorem sync_unique {st1 st2 : BitPacker} {N n : Nat} (h1 : Sync st1 N n)
    (h2 : Sync st2 N n) (hnbw : st1.numBitsWritten = st2.numBitsWritten)
    (hfin : st1.finalizeOnClose = st2.finalizeOnClose) : st1 = st2 := by
  obtain ⟨_, hi1, hp1, ho1, hw1⟩ := h1
  obtain ⟨_, hi2, hp2, ho2, hw2⟩ := h2
  cases st1
  cases st2
  simp only [BitPacker.mk.injEq]
  exact ⟨hp1.trans hp2.symm, hi1.trans hi2.symm, hnbw, ho1.trans ho2.symm,
    hfin, hw1.trans hw2.symm⟩

theorem packFields_spec (fields : List (Nat × Nat)) :
    packFields fields = finalWords (streamOf fields).1 (streamOf fields).2 :=
  destroy_out (packState_sync fields).1 (packState_sync fields).2.2

theorem packFields_goodWire {fields : List (Nat × Nat)}
    (hn : 0 < (streamOf fields).2) :
    GoodWire (packFields fields) (streamOf fields).1 (streamOf fields).2 := by
  rw [packFields_spec]
  exact goodWire_finalWords hn (streamOf_bound fields)

/-- The value of a bit sequence, first bit least significant. -/
def bitsVal : List Bool → Nat
  | [] => 0
  | b :: r => (cond b 1 0) + 2 * bitsVal r

theorem writeMany_sync : ∀ (l : List Bool) (st : BitPacker) (N n : Nat), Sync st N n →
    Sync (writeMany st l) (N + bitsVal l * 2 ^ n) (n + l.length) ∧
      (writeMany st l).finalizeOnClose = st.finalizeOnClose
  | [], st, N, n, h => by
    simpa [writeMany, bitsVal] using h
  | b :: l, st, N, n, h => by
    have hwb : st.writeBit b = st.writeBits (cond b 1 0) 1 :=
      writeBit_eq_writeBits (sync_i_lt h) b
    have hmask : (cond b 1 0) % 2 ^ 1 = cond b 1 0 := by cases b <;> rfl
    obtain ⟨hs1, _, hf1⟩ := writeBits_sync h (cond b 1 0) 1
    rw [hmask] at hs1
    have hrec := writeMany_sync l (st.writeBits (cond b 1 0) 1) _ _ hs1
    have harith : N + (cond b 1 0) * 2 ^ n + bitsVal l * 2 ^ (n + 1)
        = N + bitsVal (b :: l) * 2 ^ n := by
      show _ = N + ((cond b 1 0) + 2 * bitsVal l) * 2 ^ n
      rw [pow_add]
      ring
    have hlen : n + 1 + l.length = n + (b :: l).length := by
      simp
      omega
    constructor
    · show Sync (writeMany (st.writeBit b) l) _ _
      rw [hwb, ← harith, ← hlen]
      exact hrec.1
    · show (writeMany (st.writeBit b) l).finalizeOnClose = _
      rw [hwb, hrec.2, hf1]

/-! ## Byte-word inverse (char_packer / char_unpacker) -/

/-- The byte list `[w / 256^(c-1) % 256, ..., w / 256 % 256, w % 256]`. -/
def unpackAux : Nat → Nat → List Nat
  | 0, _ => []
  | c + 1, w => w / 256 ^ c % 256 :: unpackAux c w

theorem unpackAux_succ (c w : Nat) :
    unpackAux (c + 1) w = w / 256 ^ c % 256 :: unpackAux c w := rfl

theorem charUnpackWord_eq (w : Nat) : charUnpackWord w = unpackAux 8 w := by
  rw [show (8 : Nat) = 7 + 1 from rfl, unpackAux_succ,
    show (7 : Nat) = 6 + 1 from rfl, unpackAux_succ,
    show (6 : Nat) = 5 + 1 from rfl, unpackAux_succ,
    show (5 : Nat) = 4 + 1 from rfl, unpackAux_succ,
    show (4 : Nat) = 3 + 1 from rfl, unpackAux_succ,
    show (3 : Nat) = 2 + 1 from rfl, unpackAux_succ,
    show (2 : Nat) = 1 + 1 from rfl, unpackAux_succ,
    show (1 : Nat) = 0 + 1 from rfl, unpackAux_succ]
  simp [charUnpackWord, unpackAux]

theorem add_mul_inj {A a1 a2 b1 b2 : Nat} (h1 : a1 < A) (h2 : a2 < A)
    (h : a1 + A * b1 = a2 + A * b2) : a1 = a2 ∧ b1 = b2 := by
  have hA : 0 < A := by omega
  have ha : a1 = a2 := by
    have e1 : (a1 + A * b1) % A = a1 := by
      rw [Nat.add_mul_mod_self_left, Nat.mod_eq_of_lt h1]
    have e2 : (a2 + A * b2) % A = a2 := by
      rw [Nat.add_mul_mod_self_left, Nat.mod_eq_of_lt h2]
    rw [← e1, ← e2, h]
  refine ⟨ha, ?_⟩
  subst ha
  have := Nat.eq_of_mul_eq_mul_left hA (show A * b1 = A * b2 from by omega)
  exact this

theorem unpackAux_congr : ∀ (c : Nat) {w w' : Nat},
    w % 256 ^ c = w' % 256 ^ c → unpackAux c w = unpackAux c w'
  | 0, _, _, _ => rfl
  | c + 1, w, w', h => by
    have hs : (256 : Nat) ^ (c + 1) = 256 ^ c * 256 := pow_succ 256 c
    rw [hs] at h
    rw [Nat.mod_mul, Nat.mod_mul] at h
    have hb1 : w % 256 ^ c < 256 ^ c := Nat.mod_lt _ (Nat.pos_pow_of_pos c (by omega))
    have hb2 : w' % 256 ^ c < 256 ^ c := Nat.mod_lt _ (Nat.pos_pow_of_pos c (by omega))
    obtain ⟨hmod, hdig⟩ := add_mul_inj hb1 hb2 h
    rw [unpackAux_succ, unpackAux_succ, hdig, unpackAux_congr c hmod]

theorem foldl_packWord : ∀ (l : List Nat) (acc : Nat),
    l.foldl (fun a b => a * 256 + b) acc
      = acc * 256 ^ l.length + l.foldl (fun a b => a * 256 + b) 0
  | [], acc => by simp
  | b :: r, acc => by
    show List.foldl _ (acc * 256 + b) r = acc * 256 ^ (b :: r).length + List.foldl _ (0 * 256 + b) r
    rw [foldl_packWord r (acc * 256 + b), foldl_packWord r (0 * 256 + b),
      show (0 : Nat) * 256 + b = b from by omega, List.length_cons, pow_succ]
    ring

theorem charPackWord_cons (b : Nat) (r : List Nat) :
    charPackWord (b :: r) = b * 256 ^ r.length + charPackWord r := by
  show List.foldl _ (0 * 256 + b) r = _
  rw [show (0 : Nat) * 256 + b = b from by omega, foldl_packWord r b]
  rfl

theorem charPackWord_lt : ∀ (l : List Nat), (∀ b ∈ l, b < 256) →
    charPackWord l < 256 ^ l.length
  | [], _ => by decide
  | b :: r, hb => by
    have h1 := charPackWord_lt r (fun x hx => hb x (List.mem_cons_of_mem _ hx))
    have h2 : b + 1 ≤ 256 := hb b (List.mem_cons_self b r)
    rw [charPackWord_cons, List.length_cons]
    calc b * 256 ^ r.length + charPackWord r < (b + 1) * 256 ^ r.length := by
          rw [Nat.succ_mul]
          omega
      _ ≤ 256 * 256 ^ r.length := Nat.mul_le_mul_right _ h2
      _ = 256 ^ (r.length + 1) := by rw [pow_succ]; ring

theorem unpack_pack : ∀ (l : List Nat), (∀ b ∈ l, b < 256) →
    unpackAux l.length (charPackWord l) = l
  | [], _ => rfl
  | b :: r, hb => by
    have hr : ∀ x ∈ r, x < 256 := fun x hx => hb x (List.mem_cons_of_mem _ hx)
    have hb0 : b < 256 := hb b (List.mem_cons_self b r)
    have hlt := charPackWord_lt r hr
    have hA : (0 : Nat) < 256 ^ r.length := Nat.pos_pow_of_pos _ (by omega)
    show unpackAux (r.length + 1) (charPackWord (b :: r)) = b :: r
    rw [unpackAux_succ, charPackWord_cons]
    have hhead : (b * 256 ^ r.length + charPackWord r) / 256 ^ r.length % 256 = b := by
      rw [Nat.mul_comm b, Nat.mul_add_div hA, Nat.div_eq_of_lt hlt, Nat.add_zero,
        Nat.mod_eq_of_lt hb0]
    have htail : unpackAux r.length (b * 256 ^ r.length + charPackWord r)
        = unpackAux r.length (charPackWord r) := by
      apply unpackAux_congr
      rw [Nat.mul_comm b, Nat.mul_add_mod]
    rw [hhead, htail, unpack_pack r hr]

theorem charUnpack_charPack8 {l : List Nat} (hlen : l.length = 8)
    (hb : ∀ b ∈ l, b < 256) : charUnpackWord (charPackWord l) = l := by
  rw [charUnpackWord_eq, ← hlen]
  exact unpack_pack l hb

theorem charRoundtrip : ∀ (bytes : List Nat), bytes.length % 8 = 0 →
    (∀ b ∈ bytes, b < 256) → (charPackList bytes).map charUnpackList = some bytes
  | [], _, _ => rfl
  | b0 :: b1 :: b2 :: b3 :: b4 :: b5 :: b6 :: b7 :: rest, hlen, hb => by
    have hrl : rest.length % 8 = 0 := by
      simp only [List.length_cons] at hlen
      omega
    have hrb : ∀ x ∈ rest, x < 256 := fun x hx => hb x (by simp [hx])
    have hrest := charRoundtrip rest hrl hrb
    cases hws : charPackList rest with
    | none => rw [hws] at hrest; simp at hrest
    | some ws =>
      rw [hws] at hrest
      have hun : charUnpackList ws = rest := by simpa using hrest
      show ((charPackList rest).map
        (fun ws => charPackWord [b0, b1, b2, b3, b4, b5, b6, b7] :: ws)).map charUnpackList
          = some (b0 :: b1 :: b2 :: b3 :: b4 :: b5 :: b6 :: b7 :: rest)
      rw [hws]
      simp only [Option.map_some', Option.some.injEq]
      show charUnpackWord (charPackWord [b0, b1, b2, b3, b4, b5, b6, b7])
          ++ charUnpackList ws = _
      rw [hun, charUnpack_charPack8 (by rfl) (fun x hx => hb x (by
        simp only [List.mem_cons, List.not_mem_nil, or_false] at hx
        simp only [List.mem_cons]
        tauto))]
      rfl
  | [a], hlen, _ => by simp at hlen
  | [a, b], hlen, _ => by simp at hlen
  | [a, b, c], hlen, _ => by simp at hlen
  | [a, b, c, d], hlen, _ => by simp at hlen
  | [a, b, c, d, e], hlen, _ => by simp at hlen
  | [a, b, c, d, e, f], hlen, _ => by simp at hlen
  | [a, b, c, d, e, f, g], hlen, _ => by simp at hlen

/-! ## Overlapping blocks invariants -/

theorem drop_append_ge : ∀ (l1 l2 : List Nat) (n : Nat), l1.length ≤ n →
    (l1 ++ l2).drop n = l2.drop (n - l1.length)
  | [], l2, n, _ => by simp
  | a :: l1, l2, n, h => by
    match n, h with
    | n + 1, h =>
      show (l1 ++ l2).drop n = l2.drop (n + 1 - (l1.length + 1))
      rw [drop_append_ge l1 l2 n (by simpa using h), Nat.succ_sub_succ]

/-- The state invariant of a well-formed `OverlappingBlocks` over parameters
`B` and `O`: the overlap region always holds exactly `O` characters, and as
long as a probe character is pending (the block is not the last) the
current block is full. -/
def OBInv (B O : Nat) (st : OverlappingBlocks) : Prop :=
  st.block_size = B ∧ st.overlap = O ∧ st.ovl.length = O ∧
    (st.probe.isSome = true → st.blk.length = B)

theorem head_isSome_length {l : List Nat} (h : l.head?.isSome = true) :
    0 < l.length := by
  cases l with
  | nil => simp at h
  | cons a r => simp

/-- `read_next` on a state whose `first()` holds. -/
theorem read_next_first {st : OverlappingBlocks} (h : st.cur_offs = 0) :
    st.read_next = { st with
      blk := st.rest.take st.block_size,
      probe := (st.rest.drop st.block_size).head?,
      rest := (st.rest.drop st.block_size).tail } := by
  simp [OverlappingBlocks.read_next, OverlappingBlocks.first, h]

/-- `read_next` on a state past the first block. -/
theorem read_next_later {st : OverlappingBlocks} (h : st.cur_offs ≠ 0) :
    st.read_next = { st with
      blk := st.probe.getD 0 :: st.rest.take (st.block_size - 1),
      probe := (st.rest.drop (st.block_size - 1)).head?,
      rest := (st.rest.drop (st.block_size - 1)).tail } := by
  simp [OverlappingBlocks.read_next, OverlappingBlocks.first, h]

/-- `advance` on a non-last state: slide the overlap, then `read_next`. -/
theorem advance_not_last {st : OverlappingBlocks} (hlast : st.lastBlock = false) :
    st.advance = (decide (0 < (OverlappingBlocks.read_next { st with
        ovl := (st.ovl ++ st.blk).drop st.blk.length,
        cur_offs := st.cur_offs + st.blk.length }).blk.length),
      OverlappingBlocks.read_next { st with
        ovl := (st.ovl ++ st.blk).drop st.blk.length,
        cur_offs := st.cur_offs + st.blk.length }) := by
  simp only [OverlappingBlocks.advance, hlast]
  rfl

theorem advance_last {st : OverlappingBlocks} (hlast : st.lastBlock = true) :
    st.advance = (false, st) := by
  simp only [OverlappingBlocks.advance, hlast]
  rfl

theorem read_next_ovl (st : OverlappingBlocks) : st.read_next.ovl = st.ovl := by
  by_cases h : st.cur_offs = 0
  · rw [read_next_first h]
  · rw [read_next_later h]

/-- The state after `advance`'s slide loop, before its `read_next`. -/
def slideState (st : OverlappingBlocks) : OverlappingBlocks :=
  { st with ovl := (st.ovl ++ st.blk).drop st.blk.length,
            cur_offs := st.cur_offs + st.blk.length }

theorem slideState_ovl (st : OverlappingBlocks) :
    (slideState st).ovl = (st.ovl ++ st.blk).drop st.blk.length := rfl

theorem slideState_cur_offs (st : OverlappingBlocks) :
    (slideState st).cur_offs = st.cur_offs + st.blk.length := rfl

theorem advance_read_next {st : OverlappingBlocks} (hlast : st.lastBlock = false) :
    (st.advance).2 = (slideState st).read_next := by
  rw [advance_not_last hlast]
  rfl

theorem not_last_probe {st : OverlappingBlocks} (hlast : st.lastBlock = false) :
    st.probe.isSome = true := by
  simpa [OverlappingBlocks.lastBlock, Option.isNone_iff_eq_none,
    Option.isSome_iff_ne_none] using hlast

theorem init_inv (input : List Nat) (B O : Nat) :
    OBInv B O (OverlappingBlocks.init input B O) := by
  unfold OverlappingBlocks.init
  rw [read_next_first rfl]
  refine ⟨rfl, rfl, by simp, ?_⟩
  intro hp
  have hp2 : ((input.drop B).head?).isSome = true := hp
  have hlen := head_isSome_length hp2
  rw [List.length_drop] at hlen
  show (input.take B).length = B
  rw [List.length_take]
  omega

theorem advance_slide {B O : Nat} {st : OverlappingBlocks}
    (hinv : OBInv B O st) (hOB : O ≤ B) (hlast : st.lastBlock = false) :
    (st.advance).2.ovl = st.blk.drop (st.blk.length - O) ∧
      (st.advance).2.ovl.length = O := by
  obtain ⟨hB, hO, hovl, hprobe⟩ := hinv
  have hblk : st.blk.length = B := hprobe (not_last_probe hlast)
  have hslide : (slideState st).ovl = st.blk.drop (st.blk.length - O) := by
    rw [slideState_ovl, drop_append_ge st.ovl st.blk st.blk.length (by omega),
      hovl, hblk]
  rw [advance_read_next hlast, read_next_ovl, hslide]
  refine ⟨rfl, ?_⟩
  rw [List.length_drop]
  omega

theorem advance_inv {B O : Nat} {st : OverlappingBlocks} (hB : 1 ≤ B)
    (hOB : O ≤ B) (hinv : OBInv B O st) : OBInv B O (st.advance).2 := by
  cases hlast : st.lastBlock with
  | false =>
    have hlen := (advance_slide hinv hOB hlast).2
    obtain ⟨hB', hO', hovl, hprobe⟩ := hinv
    have hblk : st.blk.length = B := hprobe (not_last_probe hlast)
    have hco : (slideState st).cur_offs ≠ 0 := by
      rw [slideState_cur_offs]
      omega
    have hrn := read_next_later hco
    refine ⟨?_, ?_, hlen, ?_⟩
    · rw [advance_read_next hlast, hrn]
      exact hB'
    · rw [advance_read_next hlast, hrn]
      exact hO'
    · rw [advance_read_next hlast, hrn]
      intro hp
      have hp2 : ((st.rest.drop (st.block_size - 1)).head?).isSome = true := hp
      have hrest := head_isSome_length hp2
      rw [List.length_drop] at hrest
      show (st.rest.take (st.block_size - 1)).length + 1 = B
      rw [List.length_take]
      rw [hB'] at hrest ⊢
      omega
  | true =>
    rw [show (st.advance).2 = st from by rw [advance_last hlast]]
    exact hinv

/-- `k` calls of `advance` after construction and `init`. -/
def obIter (input : List Nat) (B O : Nat) : Nat → OverlappingBlocks
  | 0 => OverlappingBlocks.init input B O
  | k + 1 => ((obIter input B O k).advance).2

theorem obIter_inv (input : List Nat) {B O : Nat} (hB : 1 ≤ B) (hOB : O ≤ B) :
    ∀ k : Nat, OBInv B O (obIter input B O k)
  | 0 => init_inv input B O
  | k + 1 => advance_inv hB hOB (obIter_inv input hB hOB k)

theorem getD_replicate (O j : Nat) : (List.replicate O (0 : Nat)).getD j 0 = 0 := by
  rw [List.getD_eq_getElem?_getD, List.getElem?_replicate]
  by_cases h : j < O
  · rw [if_pos h]
    rfl
  · rw [if_neg h]
    rfl

theorem getD_drop (l : List Nat) (m j : Nat) :
    (l.drop m).getD j 0 = l.getD (m + j) 0 := by
  rw [List.getD_eq_getElem?_getD, List.getD_eq_getElem?_getD, List.getElem?_drop]

theorem init_ovl (input : List Nat) (B O : Nat) :
    (obIter input B O 0).ovl = List.replicate O 0 := by
  show (OverlappingBlocks.init input B O).ovl = _
  unfold OverlappingBlocks.init
  rw [read_next_ovl]

/-! ## Counter bookkeeping of the packer -/

theorem writeLoop_numBitsWritten : ∀ (fuel : Nat) (st : BitPacker) (bits num : Nat),
    ((BitPacker.writeLoop fuel st bits num).1).numBitsWritten = st.numBitsWritten
  | 0, _, _, _ => rfl
  | fuel + 1, st, bits, num => by
    simp only [BitPacker.writeLoop]
    split
    · rw [writeLoop_numBitsWritten fuel, flush_numBitsWritten]
    · rfl

theorem writeBit_numBitsWritten (st : BitPacker) (b : Bool) :
    (st.writeBit b).numBitsWritten = st.numBitsWritten + 1 := by
  simp only [BitPacker.writeBit]
  split
  · rw [flush_numBitsWritten]
  · rfl

theorem writeBits_numBitsWritten (st : BitPacker) (bits num : Nat) :
    (st.writeBits bits num).numBitsWritten = st.numBitsWritten + num := by
  simp only [BitPacker.writeBits]
  split
  · split
    · rw [flush_numBitsWritten]
      show ((BitPacker.writeLoop num st bits num).1).numBitsWritten + num = _
      rw [writeLoop_numBitsWritten]
    · show ((BitPacker.writeLoop num st bits num).1).numBitsWritten + num = _
      rw [writeLoop_numBitsWritten]
  · rw [writeLoop_numBitsWritten]

theorem destroy_numBitsWritten (st : BitPacker) :
    st.destroy.numBitsWritten = st.numBitsWritten := by
  simp only [BitPacker.destroy]
  rw [flush_numBitsWritten]
  split
  · show (if st.i ≥ PAYLOAD_BITS then st.flush else st).numBitsWritten = _
    split
    · rw [flush_numBitsWritten]
    · rfl
  · rfl

/-! ## Shapes of the finalized wire -/

theorem finalWords_mid {N n : Nat} (h0 : n ≠ 0) (hr0 : n % PACK_WORD_BITS ≠ 0)
    (hrp : n % PACK_WORD_BITS < PAYLOAD_BITS) :
    finalWords N n = wordsOf N n ++ [N / 2 ^ (PACK_WORD_BITS * (n / PACK_WORD_BITS))
      + encode_finalizer (n % PACK_WORD_BITS)] := by
  simp only [finalWords]
  rw [if_neg h0, if_neg hr0, if_neg (by omega)]

theorem finalWords_hi {N n : Nat} (h0 : n ≠ 0)
    (hrp : PAYLOAD_BITS ≤ n % PACK_WORD_BITS) :
    finalWords N n = wordsOf N n ++ [N / 2 ^ (PACK_WORD_BITS * (n / PACK_WORD_BITS)),
      encode_finalizer (n % PACK_WORD_BITS)] := by
  have hP : PAYLOAD_BITS = 58 := PAYLOAD_BITS_def
  simp only [finalWords]
  rw [if_neg h0, if_neg (show ¬ (n % PACK_WORD_BITS = 0) from by omega), if_pos hrp]

/-! ## The packed stream of a field sequence, read back -/

theorem streamOf_pos {fields : List (Nat × Nat)} (hne : fields ≠ [])
    (hw : ∀ vk ∈ fields, 1 ≤ vk.2 ∧ vk.2 ≤ PACK_WORD_BITS) :
    0 < (streamOf fields).2 := by
  cases fields with
  | nil => exact absurd rfl hne
  | cons vk rest =>
    have h1 := (hw vk (List.mem_cons_self vk rest)).1
    show 0 < vk.2 + (streamOf rest).2
    omega

theorem readFields_start {fields : List (Nat × Nat)}
    (hw : ∀ vk ∈ fields, 1 ≤ vk.2 ∧ vk.2 ≤ PACK_WORD_BITS) (hne : fields ≠ []) :
    readFields (BitUnpacker.start (packFields fields)) fields
      = (fields.map (fun vk => vk.1 % 2 ^ vk.2),
         stateAt (packFields fields) (streamOf fields).2) := by
  have hn := streamOf_pos hne hw
  have hgw := packFields_goodWire hn
  have hstart : BitUnpacker.start (packFields fields)
      = stateAt (packFields fields) 0 := by
    simp [stateAt]
  rw [hstart, readFields_spec hgw fields 0 (by omega) (fun vk hvk => hw vk hvk)]
  rw [Nat.zero_add]
  have hsl := sliceFields_eq fields []
  simp only [List.nil_append] at hsl
  rw [Prod.mk.injEq]
  exact ⟨hsl, rfl⟩

/-! ## The finalizer field as the packer writes it and the unpacker reads it -/

theorem encode_field {n : Nat} (h1 : 1 ≤ n) (h2 : n ≤ 64) :
    encode_finalizer (n % PACK_WORD_BITS) % 2 ^ FINALIZER_LSH = 0 ∧
      (encode_finalizer (n % PACK_WORD_BITS) >>> FINALIZER_LSH) % 2 ^ FINALIZER_BITS
        = (n - 1) % PACK_WORD_BITS := by
  rw [PACK_WORD_BITS_def, FINALIZER_LSH_def, FINALIZER_BITS_def]
  by_cases h64 : n = 64
  · subst h64
    decide
  · rw [Nat.mod_eq_of_lt (show n < 64 from by omega), encode_finalizer_eq h1 (by omega),
      Nat.mod_eq_of_lt (show n - 1 < 64 from by omega)]
    constructor
    · exact Nat.mul_mod_left _ _
    · rw [Nat.shiftRight_eq_div_pow, Nat.mul_div_cancel _ (Nat.two_pow_pos 57)]
      exact Nat.mod_eq_of_lt (by omega)

theorem decode_add_127 (p : Nat) (hp : p < 2 ^ 57) :
    decode_finalizer (p + 127 * 2 ^ 57) = 64 := by
  unfold decode_finalizer
  rw [FINALIZER_LSH_def, PACK_WORD_BITS_def, Nat.shiftRight_eq_div_pow]
  have hdiv : (p + 127 * 2 ^ 57) / 2 ^ 57 = 127 := by
    rw [Nat.add_mul_div_right _ _ (Nat.two_pow_pos _), Nat.div_eq_of_lt hp,
      Nat.zero_add]
  rw [hdiv]
  decide

theorem decode_lor_encode {n : Nat} (p : Nat) (h1 : 1 ≤ n) (h2 : n ≤ 64)
    (hp : p < 2 ^ 57) :
    decode_finalizer (p ||| encode_finalizer (n % PACK_WORD_BITS)) = n := by
  rw [PACK_WORD_BITS_def]
  by_cases h64 : n = 64
  · subst h64
    rw [show encode_finalizer (64 % 64) = 127 * 2 ^ 57 from by decide,
      lor_eq_add _ _ hp]
    exact decode_add_127 p hp
  · rw [Nat.mod_eq_of_lt (show n < 64 from by omega), encode_finalizer_eq h1 (by omega),
      lor_eq_add _ _ hp]
    exact decode_add p h1 (by omega) hp

/-! ## The claims -/

/-- Claim C1: round-trip of the bit codec. For every sequence of
(value, width) fields with widths in `[1, W]` and values below `2 ^ width`,
writing the sequence with `BitPacker::write(value, width)` under finalize
and reading it back with `BitUnpacker::read(width)` in order reproduces
every value exactly; after the last field the unpacker reports `eof()`,
and before each field it reports `good()` and not `eof()`. -/
theorem c1_bit_roundtrip (fields : List (Nat × Nat))
    (hw : ∀ vk ∈ fields, 1 ≤ vk.2 ∧ vk.2 ≤ PACK_WORD_BITS)
    (hv : ∀ vk ∈ fields, vk.1 < 2 ^ vk.2) :
    (readFields (BitUnpacker.start (packFields fields)) fields).1
        = fields.map Prod.fst ∧
      (readFields (BitUnpacker.start (packFields fields)) fields).2.eof = true ∧
      ∀ f1 vk f2, fields = f1 ++ vk :: f2 →
        (readFields (BitUnpacker.start (packFields fields)) f1).2.good = true ∧
        (readFields (BitUnpacker.start (packFields fields)) f1).2.eof = false := by
  by_cases hne : fields = []
  · subst hne
    refine ⟨rfl, by decide, ?_⟩
    intro f1 vk f2 habs
    cases f1 <;> simp at habs
  · have hn := streamOf_pos hne hw
    have hgw := packFields_goodWire hn
    have hrf := readFields_start hw hne
    have hstart : BitUnpacker.start (packFields fields)
        = stateAt (packFields fields) 0 := by
      simp [stateAt]
    refine ⟨?_, ?_, ?_⟩
    · rw [hrf]
      show fields.map (fun vk => vk.1 % 2 ^ vk.2) = _
      apply List.map_congr_left
      intro vk hvk
      exact Nat.mod_eq_of_lt (hv vk hvk)
    · rw [hrf]
      show (stateAt (packFields fields) (streamOf fields).2).eof = true
      rw [(stateAt_good_eof hgw le_rfl).2]
      exact decide_eq_true rfl
    · intro f1 vk f2 hsplit
      have hvk : vk ∈ fields := by
        rw [hsplit]
        exact List.mem_append_right _ (List.mem_cons_self _ _)
      have hvk2 := (hw vk hvk).1
      have hrest : (streamOf (vk :: f2)).2 = vk.2 + (streamOf f2).2 := rfl
      have hlt : (streamOf f1).2 < (streamOf fields).2 := by
        rw [hsplit, streamOf_append_len, hrest]
        omega
      rw [hstart, readFields_spec hgw f1 0 (by omega) (fun u hu => hw u (by
        rw [hsplit]
        exact List.mem_append_left _ hu))]
      constructor
      · show (stateAt (packFields fields) (0 + (streamOf f1).2)).good = true
        rw [(stateAt_good_eof hgw (by omega)).1]
        exact decide_eq_true (by omega)
      · show (stateAt (packFields fields) (0 + (streamOf f1).2)).eof = false
        rw [(stateAt_good_eof hgw (by omega)).2]
        exact decide_eq_false (by omega)

/-- Closed instance of `c1_bit_roundtrip` at the three fields of the
specification's end-to-end example: a 0 bit, a 1 bit, then the value 11
written in 4 bits. -/
theorem c1_bit_roundtrip_witness :
    (readFields (BitUnpacker.start (packFields [(0, 1), (1, 1), (11, 4)]))
          [(0, 1), (1, 1), (11, 4)]).1
        = [(0, 1), (1, 1), (11, 4)].map Prod.fst ∧
      (readFields (BitUnpacker.start (packFields [(0, 1), (1, 1), (11, 4)]))
          [(0, 1), (1, 1), (11, 4)]).2.eof = true ∧
      ∀ f1 vk f2, [(0, 1), (1, 1), (11, 4)] = f1 ++ vk :: f2 →
        (readFields (BitUnpacker.start (packFields [(0, 1), (1, 1), (11, 4)]))
            f1).2.good = true ∧
        (readFields (BitUnpacker.start (packFields [(0, 1), (1, 1), (11, 4)]))
            f1).2.eof = false :=
  c1_bit_roundtrip [(0, 1), (1, 1), (11, 4)] (by decide) (by decide)

/-- Claim C2, corrected. The spec places the finalizer field at bit
positions `[W - F, W)` (shift by `PAYLOAD_BITS = 58`); the code shifts by
`FINALIZER_LSH = PAYLOAD_BITS - 1 = 57`, so the value `(n - 1) mod W` sits
in the `F` bits at positions `[W - F - 1, W - 1)`. Amended statement: for
`n ∈ [1, W]` valid payload bits the encoder's pattern has zero low
`FINALIZER_LSH` bits, carries `(n - 1) mod W` in the `F`-bit field starting
at bit `FINALIZER_LSH`, and the decoder recovers `n` from any last word
with arbitrary payload below the field. -/
theorem c2_finalizer_layout (n p : Nat) (h1 : 1 ≤ n) (h2 : n ≤ PACK_WORD_BITS)
    (hp : p < 2 ^ FINALIZER_LSH) :
    encode_finalizer (n % PACK_WORD_BITS) % 2 ^ FINALIZER_LSH = 0 ∧
      (encode_finalizer (n % PACK_WORD_BITS) >>> FINALIZER_LSH) % 2 ^ FINALIZER_BITS
        = (n - 1) % PACK_WORD_BITS ∧
      decode_finalizer (p ||| encode_finalizer (n % PACK_WORD_BITS)) = n :=
  ⟨(encode_field h1 h2).1, (encode_field h1 h2).2, decode_lor_encode p h1 h2 hp⟩

/-- Closed refutation of the spec's literal layout: for a last word with
`n = 2` valid bits, placing `(n - 1) mod W = 1` at bit positions
`[W - F, W)` (value `2 ^ 58`, per `specFinalizerEncode`) is not what the
packer emits (`2 ^ 57`), and the unpacker decodes the spec's pattern to 3,
not 2. -/
theorem c2_spec_layout_refuted :
    specFinalizerEncode 2 ≠ encode_finalizer (2 % PACK_WORD_BITS) ∧
      decode_finalizer (specFinalizerEncode 2) ≠ 2 := by decide

/-- Closed instance of `c2_finalizer_layout` at `n = 5`, payload `p = 3`. -/
theorem c2_finalizer_layout_witness :
    (1 ≤ 5 ∧ 5 ≤ PACK_WORD_BITS ∧ 3 < 2 ^ FINALIZER_LSH) ∧
      encode_finalizer (5 % PACK_WORD_BITS) % 2 ^ FINALIZER_LSH = 0 ∧
        (encode_finalizer (5 % PACK_WORD_BITS) >>> FINALIZER_LSH) % 2 ^ FINALIZER_BITS
          = (5 - 1) % PACK_WORD_BITS ∧
        decode_finalizer (3 ||| encode_finalizer (5 % PACK_WORD_BITS)) = 5 :=
  ⟨⟨by decide, by decide, by decide⟩,
    c2_finalizer_layout 5 3 (by decide) (by decide) (by decide)⟩

/-- Claim C3: finalizer boundary word counts. Destroying a finalizing
packer after exactly `PAYLOAD_BITS - 1 = 57` single-bit writes emits one
word; after exactly `PAYLOAD_BITS = 58` writes it emits two words; after
exactly `W = 64` one-bit writes it emits two words, the first being the
all-ones word. -/
theorem c3_boundary_word_counts (l57 l58 : List Bool)
    (h57 : l57.length = PAYLOAD_BITS - 1) (h58 : l58.length = PAYLOAD_BITS) :
    ((writeMany (BitPacker.start true) l57).destroy.out).length = 1 ∧
      ((writeMany (BitPacker.start true) l58).destroy.out).length = 2 ∧
      (writeMany (BitPacker.start true)
          (List.replicate PACK_WORD_BITS true)).destroy.out
        = [PACK_WORD_MAX, encode_finalizer 0] := by
  have hbase : ∀ l : List Bool,
      (writeMany (BitPacker.start true) l).destroy.out
        = finalWords (bitsVal l) l.length := by
    intro l
    obtain ⟨hs, hf⟩ := writeMany_sync l (BitPacker.start true) 0 0 (sync_start true)
    rw [show (0 : Nat) + bitsVal l * 2 ^ 0 = bitsVal l from by ring,
      show 0 + l.length = l.length from by omega] at hs
    exact destroy_out hs (by rw [hf]; rfl)
  refine ⟨?_, ?_, ?_⟩
  · rw [hbase, h57, show PAYLOAD_BITS - 1 = 57 from by decide,
      finalWords_mid (by decide) (by decide) (by decide),
      List.length_append, wordsOf_length]
    norm_num
  · rw [hbase, h58, PAYLOAD_BITS_def, finalWords_hi (by decide) (by decide),
      List.length_append, wordsOf_length]
    norm_num
  · decide

/-- Closed instance of `c3_boundary_word_counts` at all-ones bit lists. -/
theorem c3_boundary_word_counts_witness :
    ((List.replicate 57 true).length = PAYLOAD_BITS - 1 ∧
        (List.replicate 58 true).length = PAYLOAD_BITS) ∧
      ((writeMany (BitPacker.start true) (List.replicate 57 true)).destroy.out).length = 1 ∧
        ((writeMany (BitPacker.start true) (List.replicate 58 true)).destroy.out).length = 2 ∧
        (writeMany (BitPacker.start true)
            (List.replicate PACK_WORD_BITS true)).destroy.out
          = [PACK_WORD_MAX, encode_finalizer 0] :=
  ⟨⟨by decide, by decide⟩,
    c3_boundary_word_counts (List.replicate 57 true) (List.replicate 58 true)
      (by decide) (by decide)⟩

/-- Claim C4: unpacker extra-word tie-break. When the pending lookahead
word is promoted and fetching the next lookahead word drains the source
(the input holds exactly one more word `w`), `advance` decodes `w`'s
finalizer, and exactly when the decoded valid-bit count is
`≥ PAYLOAD_BITS` it marks the stream final immediately with that count;
otherwise `final` and `finalAvail` are left unchanged. -/
theorem c4_lookahead_tiebreak (pk nx iv fa w : Nat) :
    BitUnpacker.advance ⟨pk, nx, iv, [w], false, fa⟩
      = ⟨nx, w, 0, [], decide (decode_finalizer w ≥ PAYLOAD_BITS),
          if decode_finalizer w ≥ PAYLOAD_BITS then decode_finalizer w else fa⟩ := by
  rw [advance_fetch_last]
  by_cases h : decode_finalizer w ≥ PAYLOAD_BITS
  · rw [if_pos h, if_pos h, decide_eq_true h]
  · rw [if_neg h, if_neg h, decide_eq_false h]

/-- Claim C5: empty stream. A finalizing packer destroyed without any
write emits zero words, and a sized-mode unpacker over zero words reports
`eof()` and not `good()` immediately, with zero valid bits. -/
theorem c5_empty_stream :
    packFields [] = [] ∧
      (BitUnpacker.start (packFields [])).eof = true ∧
      (BitUnpacker.start (packFields [])).good = false ∧
      (BitUnpacker.start (packFields [])).finalAvail = 0 := by decide

/-- Claim C6: packer counters. After any sequence of writes,
`pack_pos()` is the total bit count modulo `W` and `num_bits_written()`
is exactly the total bit count; each `write(bool)` adds 1 and each
`write(bits, num)` adds `num` to `num_bits_written()` (so it never
decreases), and finalization (`~BitPacker`) never adds to it. -/
theorem c6_packer_counters (fields : List (Nat × Nat)) :
    (packState fields).pack_pos = (streamOf fields).2 % PACK_WORD_BITS ∧
      (packState fields).numBitsWritten = (streamOf fields).2 ∧
      (∀ (st : BitPacker) (b : Bool),
        (st.writeBit b).numBitsWritten = st.numBitsWritten + 1) ∧
      (∀ (st : BitPacker) (bits num : Nat),
        (st.writeBits bits num).numBitsWritten = st.numBitsWritten + num) ∧
      (∀ st : BitPacker, st.destroy.numBitsWritten = st.numBitsWritten) := by
  obtain ⟨hs, hnbw, _⟩ := packState_sync fields
  refine ⟨?_, hnbw, writeBit_numBitsWritten, writeBits_numBitsWritten,
    destroy_numBitsWritten⟩
  show (packState fields).i % PACK_WORD_BITS = _
  rw [hs.2.1, PACK_WORD_BITS_def, Nat.mod_mod]

/-- Claim C7: byte-word inverse law. For every byte buffer whose length is
a multiple of `sizeof(PackWord) = 8`, packing it to words with
`CharPacker` (most significant byte first) and unpacking with
`CharUnpacker` reproduces the buffer exactly. -/
theorem c7_byte_word_inverse (bytes : List Nat) (hlen : bytes.length % 8 = 0)
    (hb : ∀ b ∈ bytes, b < 256) :
    (charPackList bytes).map charUnpackList = some bytes :=
  charRoundtrip bytes hlen hb

/-- Closed instance of `c7_byte_word_inverse` at the bytes of
"tudocomp". -/
theorem c7_byte_word_inverse_witness :
    (([116, 117, 100, 111, 99, 111, 109, 112] : List Nat).length % 8 = 0) ∧
      (charPackList [116, 117, 100, 111, 99, 111, 109, 112]).map charUnpackList
        = some [116, 117, 100, 111, 99, 111, 109, 112] :=
  ⟨by decide, c7_byte_word_inverse [116, 117, 100, 111, 99, 111, 109, 112]
    (by decide) (by decide)⟩

/-- Claim C8, corrected. The claim says any source with fewer than
`sizeof(PackWord) = 8` remaining bytes makes the adapter enter its end
state; in the code only an exactly-empty source does (`advance` checks
`in_ == end_` once, then reads 8 bytes unconditionally, running past the
end of a 1-to-7-byte source, modelled as `none`). Amended statement: with
fewer than 8 bytes remaining, `advance` reaches the end state exactly on
an empty source and otherwise yields nothing; in particular it never
produces a word assembled from fewer than 8 source bytes. -/
theorem c8_short_source (st : CharPacker) (h : st.input.length < 8) :
    CharPacker.advance st
      = if st.input.isEmpty then some { st with reached_end := true }
        else none := by
  by_cases hin : st.input.isEmpty
  · rw [CharPacker.advance, if_pos hin, if_pos hin]
  · have h8 : ¬ (8 ≤ st.input.length) := by omega
    rw [CharPacker.advance, if_neg hin, if_neg h8, if_neg hin]

/-- Closed refutation of the claim as stated: with 3 bytes remaining the
adapter does not reach its end state (it does not return any successor
state at all, the modelled out-of-bounds read). -/
theorem c8_no_end_state :
    ((⟨[1, 2, 3], 0, false⟩ : CharPacker).input.length < 8) ∧
      CharPacker.advance ⟨[1, 2, 3], 0, false⟩ = none := ⟨by decide, by decide⟩

/-- Closed instance of `c8_short_source` on a 3-byte source. -/
theorem c8_short_source_witness :
    ((⟨[1, 2, 3], 0, false⟩ : CharPacker).input.length < 8) ∧
      CharPacker.advance ⟨[1, 2, 3], 0, false⟩
        = if (⟨[1, 2, 3], 0, false⟩ : CharPacker).input.isEmpty
          then some { (⟨[1, 2, 3], 0, false⟩ : CharPacker) with reached_end := true }
          else none :=
  ⟨by decide, c8_short_source ⟨[1, 2, 3], 0, false⟩ (by decide)⟩

/-- Claim C9: overlapping block lookback. With block size `B ≥ 1` and
overlap `O ≤ B`, the first block's overlap region (block-local indices
`[-O, 0)`) reads zero, and after every `advance` from a non-last block the
overlap region equals the last `O` bytes of the preceding block's in-range
content, both as the region itself and through `operator[]` on negative
indices. -/
theorem c9_overlap_lookback (input : List Nat) (B O : Nat) (hB : 1 ≤ B)
    (hOB : O ≤ B) :
    (∀ j, (obIter input B O 0).atNeg j = 0) ∧
      ∀ k : Nat, (obIter input B O k).lastBlock = false →
        (obIter input B O (k + 1)).ovl
            = (obIter input B O k).blk.drop ((obIter input B O k).blk.length - O) ∧
          ∀ j, j < O → (obIter input B O (k + 1)).atNeg j
            = (obIter input B O k).blk.getD
                ((obIter input B O k).blk.length - O + j) 0 := by
  constructor
  · intro j
    show (obIter input B O 0).ovl.getD j 0 = 0
    rw [init_ovl, getD_replicate]
  · intro k hlast
    have hinv := obIter_inv input hB hOB k
    have hslide := advance_slide hinv hOB hlast
    refine ⟨hslide.1, ?_⟩
    intro j hj
    show ((obIter input B O k).advance).2.ovl.getD j 0 = _
    rw [hslide.1, getD_drop]

/-- Closed instance of `c9_overlap_lookback` with `B = 4`, `O = 2` over a
ten-byte source. -/
theorem c9_overlap_lookback_witness :
    ((1 : Nat) ≤ 4 ∧ (2 : Nat) ≤ 4) ∧
      ((∀ j, (obIter [1, 2, 3, 4, 5, 6, 7, 8, 9, 10] 4 2 0).atNeg j = 0) ∧
        ∀ k : Nat, (obIter [1, 2, 3, 4, 5, 6, 7, 8, 9, 10] 4 2 k).lastBlock = false →
          (obIter [1, 2, 3, 4, 5, 6, 7, 8, 9, 10] 4 2 (k + 1)).ovl
              = (obIter [1, 2, 3, 4, 5, 6, 7, 8, 9, 10] 4 2 k).blk.drop
                  ((obIter [1, 2, 3, 4, 5, 6, 7, 8, 9, 10] 4 2 k).blk.length - 2) ∧
            ∀ j, j < 2 → (obIter [1, 2, 3, 4, 5, 6, 7, 8, 9, 10] 4 2 (k + 1)).atNeg j
              = (obIter [1, 2, 3, 4, 5, 6, 7, 8, 9, 10] 4 2 k).blk.getD
                  ((obIter [1, 2, 3, 4, 5, 6, 7, 8, 9, 10] 4 2 k).blk.length - 2 + j) 0) :=
  ⟨⟨by decide, by decide⟩,
    c9_overlap_lookback [1, 2, 3, 4, 5, 6, 7, 8, 9, 10] 4 2 (by decide) (by decide)⟩

/-- Claim C10 (implicit): `write(bits, num)` uses only the low `num` bits
of `bits`. Writing an unmasked value leaves the packer in exactly the
state reached by writing `extract_low(bits, num)`, and a full pack-unpack
round trip returns every value reduced modulo `2 ^ width` — for the last
field, `bits % 2 ^ num` even when `bits` has significant bits above
`num`. -/
theorem c10_write_masks_low_bits (fields : List (Nat × Nat)) (bits num : Nat)
    (hw : ∀ vk ∈ fields, 1 ≤ vk.2 ∧ vk.2 ≤ PACK_WORD_BITS)
    (h1 : 1 ≤ num) (h2 : num ≤ PACK_WORD_BITS) :
    (packState fields).writeBits bits num
        = (packState fields).writeBits (extract_low bits num) num ∧
      (readFields (BitUnpacker.start (packFields (fields ++ [(bits, num)])))
          (fields ++ [(bits, num)])).1
        = fields.map (fun vk => vk.1 % 2 ^ vk.2) ++ [bits % 2 ^ num] := by
  have hmask : extract_low bits num = bits % 2 ^ num := extract_low_eq_mod bits h1 h2
  constructor
  · obtain ⟨hs, hnbw, hfin⟩ := packState_sync fields
    obtain ⟨hsa, hna, hfa⟩ := writeBits_sync hs bits num
    obtain ⟨hsb, hnb, hfb⟩ := writeBits_sync hs (extract_low bits num) num
    have heq : extract_low bits num % 2 ^ num = bits % 2 ^ num := by
      rw [hmask, Nat.mod_mod]
    rw [heq] at hsb
    exact sync_unique hsa hsb (by rw [hna, hnb]) (by rw [hfa, hfb])
  · have hw' : ∀ vk ∈ fields ++ [(bits, num)], 1 ≤ vk.2 ∧ vk.2 ≤ PACK_WORD_BITS := by
      intro vk hvk
      rcases List.mem_append.mp hvk with hm | hm
      · exact hw vk hm
      · simp only [List.mem_singleton] at hm
        subst hm
        exact ⟨h1, h2⟩
    rw [readFields_start hw' (by simp)]
    show (fields ++ [(bits, num)]).map (fun vk => vk.1 % 2 ^ vk.2) = _
    rw [List.map_append]
    rfl

/-- Closed instance of `c10_write_masks_low_bits`: writing 255 in 4 bits
after a 2-bit field. -/
theorem c10_write_masks_low_bits_witness :
    ((∀ vk ∈ [((3 : Nat), (2 : Nat))], 1 ≤ vk.2 ∧ vk.2 ≤ PACK_WORD_BITS) ∧
        (1 : Nat) ≤ 4 ∧ (4 : Nat) ≤ PACK_WORD_BITS) ∧
      (packState [(3, 2)]).writeBits 255 4
          = (packState [(3, 2)]).writeBits (extract_low 255 4) 4 ∧
        (readFields (BitUnpacker.start (packFields ([(3, 2)] ++ [(255, 4)])))
            ([(3, 2)] ++ [(255, 4)])).1
          = [((3 : Nat), (2 : Nat))].map (fun vk => vk.1 % 2 ^ vk.2) ++ [255 % 2 ^ 4] :=
  ⟨⟨by decide, by decide, by decide⟩,
    c10_write_masks_low_bits [(3, 2)] 255 4 (by decide) (by decide) (by decide)⟩

end Iopp
